import Mathlib

/-!
# Verification of the arqr marker scanner core

Shallow embedding of the Rust sources (`src/bitmap.rs`, `src/target.rs`,
`src/lib.rs`) and proofs about the embedded definitions.

Modelling conventions:
* `u32`/`usize` values are modelled as `ℕ`; arithmetic that can panic in Rust
  (subtraction underflow, zero chunk size, out-of-range indexing, slice range
  violations, `unwrap` on `None`) is modelled by `Option`-returning
  definitions, `none` standing for the panic.  Where a subtraction is known
  not to underflow it is modelled by truncated `ℕ` subtraction.
* `f32` run-length ratios are modelled by exact integer fractions
  (numerator/denominator pairs in `ℤ × ℤ`, compared by cross-multiplication);
  `f64` geometry is modelled by `FP`, real numbers extended with the IEEE
  special values `+∞`, `-∞` and `NaN` (arithmetic on finite values is exact,
  special values propagate as in IEEE 754).
-/

namespace Arqr

/-- `Point<T>` from `src/lib.rs`. -/
structure Point (α : Type) where
  x : α
  y : α
  deriving Repr, DecidableEq

/-! ## Bitmap (`src/bitmap.rs`)

`Bitmap { data: Vec<bool>, width: u32, height: u32 }`. -/

structure Bitmap where
  data : List Bool
  width : ℕ
  height : ℕ
  deriving Repr, DecidableEq

/-- Checked `u32` subtraction: `none` models the overflow panic of
debug-mode Rust `a - b` when `b > a`. -/
def checkedSub (a b : ℕ) : Option ℕ :=
  if b ≤ a then some (a - b) else none

namespace Bitmap

/-- `pixel_index_unchecked`: `(y * self.width + x) as usize`. -/
def pixelIndexUnchecked (bmp : Bitmap) (x y : ℕ) : ℕ :=
  y * bmp.width + x

/-- `pixel_index`: bounds check, `None` when `x ≥ width` or `y ≥ height`. -/
def pixelIndex (bmp : Bitmap) (x y : ℕ) : Option ℕ :=
  if x ≥ bmp.width ∨ y ≥ bmp.height then none
  else some (bmp.pixelIndexUnchecked x y)

/-- `get_pixel`: panics (`none`) when the index is out of bounds.  The
`data[i]` access is modelled by `List.get?`; under the length invariant
it never fails on an in-bounds index. -/
def getPixel (bmp : Bitmap) (x y : ℕ) : Option Bool :=
  match bmp.pixelIndex x y with
  | none => none
  | some i => bmp.data.get? i

/-- `get_pixel_checked`: same result as `get_pixel`, but via `Option` in the
source, too (no panic). -/
def getPixelChecked (bmp : Bitmap) (x y : ℕ) : Option Bool :=
  match bmp.pixelIndex x y with
  | none => none
  | some i => bmp.data.get? i

/-- `clamp_coords`: `(min(x, width-1), min(y, height-1))`.  The `u32`
subtractions underflow (panic) when `width = 0` resp. `height = 0`. -/
def clampCoords (bmp : Bitmap) (x y : ℕ) : Option (ℕ × ℕ) :=
  match checkedSub bmp.width 1, checkedSub bmp.height 1 with
  | some w1, some h1 => some (min x w1, min y h1)
  | _, _ => none

/-- `get_pixel_clamped`. -/
def getPixelClamped (bmp : Bitmap) (x y : ℕ) : Option Bool :=
  match bmp.clampCoords x y with
  | none => none
  | some (cx, cy) => bmp.getPixel cx cy

/-- `slice::chunks_exact`: the list of consecutive chunks of size `w`
(`i`-th chunk = elements `[i*w, (i+1)*w)`), dropping the remainder.
The caller models the `chunk_size == 0` panic. -/
def chunksExact (w : ℕ) (l : List Bool) : List (List Bool) :=
  (List.range (l.length / w)).map fun i => (l.drop (i * w)).take w

/-- `Bitmap::rows`: `chunks_exact` panics (`none`) when `width = 0`. -/
def rows (bmp : Bitmap) : Option (List (List Bool)) :=
  if bmp.width = 0 then none
  else some (chunksExact bmp.width bmp.data)

end Bitmap

/-! Basic facts about `chunksExact`. -/

theorem chunksExact_length (w : ℕ) (l : List Bool) :
    (Bitmap.chunksExact w l).length = l.length / w := by
  simp [Bitmap.chunksExact]

theorem chunksExact_mem_length (w : ℕ) (l : List Bool) (r : List Bool)
    (hr : r ∈ Bitmap.chunksExact w l) : r.length = w := by
  simp only [Bitmap.chunksExact, List.mem_map, List.mem_range] at hr
  obtain ⟨i, hi, rfl⟩ := hr
  have h4 : i * w + w ≤ l.length := by
    calc i * w + w = (i + 1) * w := by ring
    _ ≤ (l.length / w) * w := Nat.mul_le_mul_right w (Nat.succ_le_of_lt hi)
    _ ≤ l.length := Nat.div_mul_le_self _ _
  simp only [List.length_take, List.length_drop]
  omega

/-! ## The `Rows` double-ended iterator (`src/bitmap.rs`)

`Rows<'a>(slice::ChunksExact<'a, bool>)` is a double-ended iterator over the
chunks; its state is the remaining deque of chunks. -/

structure RowsIter where
  chunks : List (List Bool)
  deriving Repr, DecidableEq

namespace RowsIter

/-- `Iterator::next`: pop a row off the front. -/
def next (it : RowsIter) : Option (List Bool) × RowsIter :=
  match it.chunks with
  | [] => (none, ⟨[]⟩)
  | r :: rest => (some r, ⟨rest⟩)

/-- `DoubleEndedIterator::next_back`: pop a row off the back. -/
def nextBack (it : RowsIter) : Option (List Bool) × RowsIter :=
  match it.chunks.getLast? with
  | none => (none, ⟨[]⟩)
  | some r => (some r, ⟨it.chunks.dropLast⟩)

/-- `Iterator::count` (delegates to the inner iterator's count). -/
def count (it : RowsIter) : ℕ := it.chunks.length

/-- `Iterator::nth`: skip `n` rows, return the next. -/
def nth (it : RowsIter) (n : ℕ) : Option (List Bool) × RowsIter :=
  (it.chunks.get? n, ⟨it.chunks.drop (n + 1)⟩)

/-- `Iterator::last` (implemented in the source as `self.next_back()`). -/
def last (it : RowsIter) : Option (List Bool) := (it.nextBack).1

/-- Exhaust the iterator forwards, collecting the yielded rows. -/
def drainFwd (it : RowsIter) : List (List Bool) :=
  match h : it.next with
  | (none, _) => []
  | (some r, it') => r :: drainFwd it'
  termination_by it.chunks.length
  decreasing_by
    rcases it with ⟨l⟩
    cases l with
    | nil => simp [next] at h
    | cons a rest =>
        simp only [next] at h
        cases h
        simp

/-- Exhaust the iterator backwards, collecting the yielded rows. -/
def drainBack (it : RowsIter) : List (List Bool) :=
  match h : it.nextBack with
  | (none, _) => []
  | (some r, it') => r :: drainBack it'
  termination_by it.chunks.length
  decreasing_by
    rcases it with ⟨l⟩
    cases l with
    | nil => simp [nextBack] at h
    | cons a rest =>
        simp only [nextBack, List.getLast?_cons] at h
        rcases h' : (a :: rest).getLast? with _ | r'
        · simp [List.getLast?_eq_none_iff] at h'
        · rw [List.getLast?_cons] at h'
          rw [h'] at h
          cases h
          simpa using List.length_dropLast_lt (a := a) (l := rest) (by simp)

theorem drainFwd_eq (l : List (List Bool)) : drainFwd ⟨l⟩ = l := by
  induction l with
  | nil =>
      rw [drainFwd]
      split
      · rfl
      · rename_i r it' h
        simp [next] at h
  | cons a rest ih =>
      rw [drainFwd]
      split
      · rename_i h
        simp [next] at h
      · rename_i r it' h
        simp only [next, Prod.mk.injEq] at h
        obtain ⟨h1, rfl⟩ := h
        cases Option.some.inj h1
        rw [ih]

theorem drainBack_eq (l : List (List Bool)) : drainBack ⟨l⟩ = l.reverse := by
  induction l using List.reverseRecOn with
  | nil =>
      rw [drainBack]
      split
      · rfl
      · rename_i r it' h
        simp [nextBack] at h
  | append_singleton rest a ih =>
      rw [drainBack]
      split
      · rename_i h
        simp [nextBack] at h
      · rename_i r it' h
        simp only [nextBack, List.getLast?_concat, List.dropLast_concat, Prod.mk.injEq] at h
        obtain ⟨h1, rfl⟩ := h
        cases Option.some.inj h1
        rw [ih]
        simp

theorem last_eq_getLast (l : List (List Bool)) : last ⟨l⟩ = l.getLast? := by
  rcases h : l.getLast? with _ | r <;> simp [last, nextBack, h]

theorem nth_eq_get (l : List (List Bool)) (n : ℕ) : (nth ⟨l⟩ n).1 = l.get? n := rfl

end RowsIter

/-! ## Claims C7 and C8 -/

/-- **C7 (counterexample).** The claim quantifies over *every* `Bitmap` and
coordinate pair; on a bitmap of width 0 and height 0 the `u32` subtraction
`width - 1` inside `clamp_coords` underflows (and the subsequent pixel access
would be out of bounds), so `get_pixel_clamped` fails rather than returning
a pixel. -/
theorem C7_counterexample :
    Bitmap.getPixelClamped ⟨[], 0, 0⟩ 5 7 = none := by decide

/-- **C7 (amended).** For every `Bitmap` with positive width and height
satisfying the length invariant `len = width*height`, and every coordinate
pair `(x, y)`, `get_pixel_clamped` succeeds and returns the pixel at
`(min(x, width-1), min(y, height-1))`. -/
theorem C7_clamped_accessor (bmp : Arqr.Bitmap) (x y : ℕ)
    (hw : 0 < bmp.width) (hh : 0 < bmp.height)
    (hlen : bmp.data.length = bmp.width * bmp.height) :
    ∃ b, bmp.getPixelClamped x y = some b ∧
      bmp.data.get? (min y (bmp.height - 1) * bmp.width + min x (bmp.width - 1)) = some b := by
  have hcx : min x (bmp.width - 1) < bmp.width := lt_of_le_of_lt (min_le_right _ _) (by omega)
  have hcy : min y (bmp.height - 1) < bmp.height := lt_of_le_of_lt (min_le_right _ _) (by omega)
  have hidx : min y (bmp.height - 1) * bmp.width + min x (bmp.width - 1) < bmp.data.length := by
    rw [hlen]
    calc min y (bmp.height - 1) * bmp.width + min x (bmp.width - 1)
        < min y (bmp.height - 1) * bmp.width + bmp.width := by omega
      _ = (min y (bmp.height - 1) + 1) * bmp.width := by ring
      _ ≤ bmp.height * bmp.width := Nat.mul_le_mul_right _ (by omega)
      _ = bmp.width * bmp.height := Nat.mul_comm _ _
  have hb := List.get?_eq_get hidx
  refine ⟨_, ?_, hb⟩
  simp only [Bitmap.getPixelClamped, Bitmap.clampCoords, checkedSub, if_pos (by omega : 1 ≤ bmp.width),
    if_pos (by omega : 1 ≤ bmp.height), Bitmap.getPixel, Bitmap.pixelIndex,
    Bitmap.pixelIndexUnchecked]
  rw [if_neg (by omega)]
  exact hb

/-- **C7 (witness).** -/
theorem C7_witness :
    ∃ b, (Arqr.Bitmap.mk [true, false, false, true] 2 2).getPixelClamped 5 0 = some b ∧
      (Arqr.Bitmap.mk [true, false, false, true] 2 2).data.get?
        (min 0 (2 - 1) * 2 + min 5 (2 - 1)) = some b :=
  C7_clamped_accessor ⟨[true, false, false, true], 2, 2⟩ 5 0 (by decide) (by decide) (by decide)

/-- **C8 (counterexample).** On a `Bitmap` of width 0 and height 3 the claim
asserts that `rows()` yields exactly 3 row sequences, but building the row
iterator fails (`chunks_exact` rejects a zero chunk size), so no rows are
yielded at all. -/
theorem C8_counterexample :
    (Arqr.Bitmap.mk [] 0 3).rows = none ∧ (3 : ℕ) ≠ 0 := by decide

/-- **C8 (amended).** For every `Bitmap` of width `W ≥ 1` and height `H`
satisfying the length invariant, `rows()` yields exactly `H` row sequences,
each of length `W`; draining the row iterator backwards yields the exact
reverse of the forward drain; `nth` and `last` agree with plain forward
iteration; and a freshly restarted iterator drains to the same sequence
(the model is pure, so independence of the two iterators is automatic). -/
theorem C8_rows_iteration (bmp : Arqr.Bitmap) (hw : 0 < bmp.width)
    (hlen : bmp.data.length = bmp.width * bmp.height) :
    ∃ rs, bmp.rows = some rs ∧
      rs.length = bmp.height ∧
      (∀ r ∈ rs, r.length = bmp.width) ∧
      RowsIter.drainFwd ⟨rs⟩ = rs ∧
      RowsIter.drainBack ⟨rs⟩ = (RowsIter.drainFwd ⟨rs⟩).reverse ∧
      (∀ n, (RowsIter.nth ⟨rs⟩ n).1 = (RowsIter.drainFwd ⟨rs⟩).get? n) ∧
      RowsIter.last ⟨rs⟩ = (RowsIter.drainFwd ⟨rs⟩).getLast? := by
  refine ⟨Bitmap.chunksExact bmp.width bmp.data, ?_, ?_, ?_, ?_, ?_, ?_, ?_⟩
  · simp [Bitmap.rows, Nat.pos_iff_ne_zero.1 hw]
  · rw [chunksExact_length, hlen, Nat.mul_div_cancel_left _ hw]
  · exact fun r hr => chunksExact_mem_length _ _ r hr
  · exact RowsIter.drainFwd_eq _
  · rw [RowsIter.drainFwd_eq, RowsIter.drainBack_eq]
  · intro n
    rw [RowsIter.drainFwd_eq, RowsIter.nth_eq_get]
  · rw [RowsIter.drainFwd_eq, RowsIter.last_eq_getLast]

/-- **C8 (witness).** A concrete 2×3 bitmap. -/
theorem C8_witness :
    ∃ rs, (Arqr.Bitmap.mk [true, false, true, true, false, false] 2 3).rows = some rs ∧
      rs.length = 3 ∧
      (∀ r ∈ rs, r.length = 2) ∧
      RowsIter.drainFwd ⟨rs⟩ = rs ∧
      RowsIter.drainBack ⟨rs⟩ = (RowsIter.drainFwd ⟨rs⟩).reverse ∧
      (∀ n, (RowsIter.nth ⟨rs⟩ n).1 = (RowsIter.drainFwd ⟨rs⟩).get? n) ∧
      RowsIter.last ⟨rs⟩ = (RowsIter.drainFwd ⟨rs⟩).getLast? :=
  C8_rows_iteration ⟨[true, false, true, true, false, false], 2, 3⟩ (by decide) (by decide)

/-! ## Rectifier (`affine_transform_chunk`, `src/bitmap.rs` lines 293-320)

The `f64` arithmetic of the sampling loop is modelled by exact rationals;
for the small integer inputs used below the two agree exactly.  An affine
transform `[[a, b, tx], [c, d, ty]]` is modelled as a nested pair. -/

/-- Rust `as u32` on an `f64`: truncate toward zero, saturating at the
bounds of `u32`. -/
def toU32 (q : ℚ) : ℕ :=
  if q < 0 then 0 else min ⌊q⌋.toNat (2 ^ 32 - 1)

/-- `affine_transform_chunk`.  The source computes the determinant-based
inverse `[[ap, bp], [cp, dp]]` of the 2×2 part but only *prints* it; the
sampling loop then uses the un-inverted entries `a, b, c, d`.  `none`
models the `chunks_exact_mut(0)` panic of `rows_mut` when `width = 0`. -/
def affineTransformChunk (source : Bitmap)
    (trans : (ℚ × ℚ × ℚ) × (ℚ × ℚ × ℚ)) (width height : ℕ) : Option Bitmap :=
  let ((a, b, tx), (c, d, ty)) := trans
  -- dead code kept from the source: the inverse is computed and printed only
  let det := a * d - b * c
  let ap := d / det
  let bp := -b / det
  let cp := -c / det
  let dp := a / det
  let printed := ((ap, bp, -tx), (cp, dp, -ty))
  if width = 0 then none
  else some ⟨(List.range height).bind fun y =>
    (List.range width).map fun x =>
      let sx := toU32 (a * (x : ℚ) + c * (y : ℚ) + tx)
      let sy := toU32 (b * (x : ℚ) + d * (y : ℚ) + ty)
      (source.getPixelChecked sx sy).getD true, width, height⟩

/-- The source coordinate the sampling loop of `affine_transform_chunk`
actually computes for a destination pixel `(x, y)` (before truncation). -/
def codeSample (trans : (ℚ × ℚ × ℚ) × (ℚ × ℚ × ℚ)) (x y : ℚ) : ℚ × ℚ :=
  let ((a, b, tx), (c, d, ty)) := trans
  (a * x + c * y + tx, b * x + d * y + ty)

/-- Modelled from the spec's words for comparison (refinement claim C2):
"Invert the 2×2 linear part (standard determinant-based inverse) to obtain
source←destination sampling" — the source coordinate obtained by applying
the determinant-based inverse of the forward 2×2 linear part to the
destination coordinate (translation taken as zero here; the compared
transform below has zero translation, so every translation convention
agrees). -/
def specInverseSample (trans : (ℚ × ℚ × ℚ) × (ℚ × ℚ × ℚ)) (x y : ℚ) : ℚ × ℚ :=
  let ((a, b, _), (c, d, _)) := trans
  let det := a * d - b * c
  ((d / det) * x + (-b / det) * y, (-c / det) * x + (a / det) * y)

/-- **C2.**  The rectifier does *not* sample through the inverse of the
forward map: for the forward transform `[[2, 0, 0], [0, 1, 0]]` (zero
translation, so all translation conventions coincide) and the 4×1 source
`[true, false, false, true]`, the sampling loop reads destination pixel
`(1, 0)` from source `x = 2` (the *forward* image of 1), producing `false`,
while the determinant-based inverse prescribed by the spec sends
destination `(1, 0)` to source `x = 1/2`, whose truncation samples pixel 0,
`true`.  (In `scan`, the output size is `img.width()/2` squared, not
`side_len × side_len`.) -/
theorem C2_not_inverse_sampling :
    affineTransformChunk ⟨[true, false, false, true], 4, 1⟩ ((2, 0, 0), (0, 1, 0)) 2 1 =
      some ⟨[true, false], 2, 1⟩ ∧
    codeSample ((2, 0, 0), (0, 1, 0)) 1 0 = (2, 0) ∧
    specInverseSample ((2, 0, 0), (0, 1, 0)) 1 0 = (1 / 2, 0) ∧
    (Bitmap.mk [true, false, false, true] 4 1).getPixelChecked
      (toU32 (1 / 2)) (toU32 0) = some true := by
  refine ⟨?_, ?_, ?_, ?_⟩ <;>
    norm_num [affineTransformChunk, codeSample, specInverseSample, toU32,
      Bitmap.getPixelChecked, Bitmap.pixelIndex, Bitmap.pixelIndexUnchecked,
      List.range_succ] <;> rfl

/-! ## Binarizer (`u8_histo_to_threshold`, `src/bitmap.rs` lines 31-72)

A 256-bucket histogram is modelled as a function `ℕ → ℕ` (only buckets
`0..255` are ever read).  `usize` arithmetic is modelled by `ℕ`; the two
`-=` updates never underflow (established by the state invariant below). -/

/-- The fold step from the source:
`|(sum, cnt), (hval, luma)| (sum + hval * luma, cnt + hval)`. -/
def accum (s : ℕ × ℕ) (p : ℕ × ℕ) : ℕ × ℕ :=
  (s.1 + p.1 * p.2, s.2 + p.1)

/-- `histo[lo..lo+n].iter().zip(lo..).fold(init, accum)`. -/
def histoFold (h : ℕ → ℕ) (lo n : ℕ) (init : ℕ × ℕ) : ℕ × ℕ :=
  ((List.range' lo n).map fun i => (h i, i)).foldl accum init

/-- Luma-weighted mass of buckets `[lo, hi)`. -/
def rangeSum (h : ℕ → ℕ) (lo hi : ℕ) : ℕ :=
  ∑ i ∈ Finset.Ico lo hi, h i * i

/-- Total count of buckets `[lo, hi)`. -/
def rangeCnt (h : ℕ → ℕ) (lo hi : ℕ) : ℕ :=
  ∑ i ∈ Finset.Ico lo hi, h i

/-- The threshold-update map: state of the loop as a function of the current
threshold `t` (sums over the black side `[0, t)` and white side `[t, 256)`,
counts seeded at 1), giving the next threshold
`(black_mean + white_mean) / 2` with flooring `ℕ` division throughout. -/
def F (h : ℕ → ℕ) (t : ℕ) : ℕ :=
  (rangeSum h 0 t / (1 + rangeCnt h 0 t) + rangeSum h t 256 / (1 + rangeCnt h t 256)) / 2

/-- The `while new_thresh != thresh` loop of `u8_histo_to_threshold`,
with explicit fuel; `none` models non-termination (never reached, as
proved below). -/
def threshLoop (h : ℕ → ℕ) : ℕ → ℕ → ℕ → ℕ → ℕ → ℕ → ℕ → Option ℕ
  | 0, _, _, _, _, _, _ => none
  | fuel + 1, blackSum, blackCnt, whiteSum, whiteCnt, thresh, newThresh =>
    if newThresh = thresh then some thresh
    else
      let less := newThresh < thresh
      let mn := if less then newThresh else thresh
      let mx := if less then thresh else newThresh
      let diff := histoFold h mn (mx - mn) (0, 0)
      let blackSum' := if less then blackSum - diff.1 else blackSum + diff.1
      let blackCnt' := if less then blackCnt - diff.2 else blackCnt + diff.2
      let whiteSum' := if less then whiteSum + diff.1 else whiteSum - diff.1
      let whiteCnt' := if less then whiteCnt + diff.2 else whiteCnt - diff.2
      threshLoop h fuel blackSum' blackCnt' whiteSum' whiteCnt' newThresh
        ((blackSum' / blackCnt' + whiteSum' / whiteCnt') / 2)

/-- `u8_histo_to_threshold`. -/
def u8HistoToThreshold (h : ℕ → ℕ) : Option ℕ :=
  let black := histoFold h 0x00 0x80 (0, 1)
  let white := histoFold h 0x80 0x80 (0, 1)
  threshLoop h 1000 black.1 black.2 white.1 white.2 0x80
    ((black.1 / black.2 + white.1 / white.2) / 2)

/-! Closed form of the fold, and arithmetic helper lemmas. -/

theorem rangeSum_split (h : ℕ → ℕ) {lo mid hi : ℕ} (h1 : lo ≤ mid) (h2 : mid ≤ hi) :
    rangeSum h lo hi = rangeSum h lo mid + rangeSum h mid hi := by
  simp [rangeSum, Finset.sum_Ico_consecutive _ h1 h2]

theorem rangeCnt_split (h : ℕ → ℕ) {lo mid hi : ℕ} (h1 : lo ≤ mid) (h2 : mid ≤ hi) :
    rangeCnt h lo hi = rangeCnt h lo mid + rangeCnt h mid hi := by
  simp [rangeCnt, Finset.sum_Ico_consecutive _ h1 h2]

theorem histoFold_eq (h : ℕ → ℕ) (lo n : ℕ) (s c : ℕ) :
    histoFold h lo n (s, c) = (s + rangeSum h lo (lo + n), c + rangeCnt h lo (lo + n)) := by
  induction n generalizing lo s c with
  | zero => simp [histoFold, rangeSum, rangeCnt]
  | succ n ih =>
      have hr : List.range' lo (n + 1) = lo :: List.range' (lo + 1) n := by
        simp [List.range'_succ]
      have : histoFold h lo (n + 1) (s, c) = histoFold h (lo + 1) n (s + h lo * lo, c + h lo) := by
        simp [histoFold, hr, accum]
      rw [this, ih]
      have h1 : lo + 1 + n = lo + (n + 1) := by omega
      have hsS : rangeSum h lo (lo + (n + 1)) = rangeSum h lo (lo + 1) + rangeSum h (lo + 1) (lo + (n + 1)) :=
        rangeSum_split h (by omega) (by omega)
      have hsC : rangeCnt h lo (lo + (n + 1)) = rangeCnt h lo (lo + 1) + rangeCnt h (lo + 1) (lo + (n + 1)) :=
        rangeCnt_split h (by omega) (by omega)
      simp only [h1, hsS, hsC]
      have e1 : rangeSum h lo (lo + 1) = h lo * lo := by
        simp [rangeSum, Nat.Ico_succ_singleton lo]
      have e2 : rangeCnt h lo (lo + 1) = h lo := by
        simp [rangeCnt, Nat.Ico_succ_singleton lo]
      rw [e1, e2]
      simp only [Prod.mk.injEq]
      constructor <;> omega

/-- Monotonicity of flooring division under cross-multiplied comparison. -/
theorem div_le_div_cross {a b c d : ℕ} (hb : 0 < b) (hd : 0 < d)
    (hx : a * d ≤ c * b) : a / b ≤ c / d := by
  rw [Nat.le_div_iff_mul_le hd]
  calc a / b * d ≤ a * d / b := by
        rw [Nat.le_div_iff_mul_le hb]
        calc a / b * d * b = a / b * b * d := by ring
          _ ≤ a * d := Nat.mul_le_mul_right d (Nat.div_mul_le_self a b)
    _ ≤ c * b / b := Nat.div_le_div_right hx
    _ = c := Nat.mul_div_cancel c hb

/-- Bucket values in `[lo, hi)` are at most `hi - 1`, so the weighted mass is
bounded by `(hi - 1) ·` count. -/
theorem rangeSum_le (h : ℕ → ℕ) (lo hi : ℕ) :
    rangeSum h lo hi ≤ (hi - 1) * rangeCnt h lo hi := by
  rw [rangeSum, rangeCnt, Finset.mul_sum]
  refine Finset.sum_le_sum fun i hi' => ?_
  rw [Finset.mem_Ico] at hi'
  calc h i * i ≤ h i * (hi - 1) := Nat.mul_le_mul_left _ (by omega)
    _ = (hi - 1) * h i := Nat.mul_comm _ _

/-- Bucket values in `[lo, hi)` are at least `lo`. -/
theorem le_rangeSum (h : ℕ → ℕ) (lo hi : ℕ) :
    lo * rangeCnt h lo hi ≤ rangeSum h lo hi := by
  rw [rangeSum, rangeCnt, Finset.mul_sum]
  refine Finset.sum_le_sum fun i hi' => ?_
  rw [Finset.mem_Ico] at hi'
  calc lo * h i = h i * lo := Nat.mul_comm _ _
    _ ≤ h i * i := Nat.mul_le_mul_left _ hi'.1

/-- The black mean is at most `t - 1` (the seed counts 1 with value 0). -/
theorem blackMean_le (h : ℕ → ℕ) (t : ℕ) :
    rangeSum h 0 t / (1 + rangeCnt h 0 t) ≤ t - 1 := by
  refine Nat.div_le_of_le_mul ?_
  calc rangeSum h 0 t ≤ (t - 1) * rangeCnt h 0 t := rangeSum_le h 0 t
    _ ≤ (t - 1) * (1 + rangeCnt h 0 t) := Nat.mul_le_mul_left _ (by omega)
    _ = (1 + rangeCnt h 0 t) * (t - 1) := Nat.mul_comm _ _

/-- The white mean is at most 255 (bucket values below 256). -/
theorem whiteMean_le (h : ℕ → ℕ) (t : ℕ) :
    rangeSum h t 256 / (1 + rangeCnt h t 256) ≤ 255 := by
  refine Nat.div_le_of_le_mul ?_
  calc rangeSum h t 256 ≤ (256 - 1) * rangeCnt h t 256 := rangeSum_le h t 256
    _ ≤ 255 * (1 + rangeCnt h t 256) := Nat.mul_le_mul (by omega) (by omega)
    _ = (1 + rangeCnt h t 256) * 255 := Nat.mul_comm _ _

/-- The next threshold stays in `[0, 255]`. -/
theorem F_le (h : ℕ → ℕ) (t : ℕ) (ht : t ≤ 256) : F h t ≤ 255 := by
  have hb := blackMean_le h t
  have hw := whiteMean_le h t
  unfold F
  omega

/-- The black mean is monotone in the threshold: raising the threshold adds
only buckets whose value is at least the old threshold, hence at least the
old mean. -/
theorem blackMean_mono (h : ℕ → ℕ) {t t' : ℕ} (ht : t ≤ t') :
    rangeSum h 0 t / (1 + rangeCnt h 0 t) ≤ rangeSum h 0 t' / (1 + rangeCnt h 0 t') := by
  have hS := rangeSum_split h (Nat.zero_le t) ht
  have hC := rangeCnt_split h (Nat.zero_le t) ht
  refine div_le_div_cross (by omega) (by omega) ?_
  have hDS : t * rangeCnt h t t' ≤ rangeSum h t t' := le_rangeSum h t t'
  have hSB : rangeSum h 0 t ≤ (t - 1) * rangeCnt h 0 t := rangeSum_le h 0 t
  have key : rangeSum h 0 t * rangeCnt h t t' ≤ rangeSum h t t' * (1 + rangeCnt h 0 t) := by
    rcases Nat.eq_zero_or_pos t with rfl | htpos
    · simp [rangeSum]
    · have step1 : (t - 1) * rangeCnt h 0 t ≤ t * (1 + rangeCnt h 0 t) := by
        have h1 : (t - 1) * rangeCnt h 0 t ≤ t * rangeCnt h 0 t :=
          Nat.mul_le_mul_right _ (by omega)
        have h2 : t * rangeCnt h 0 t ≤ t * (1 + rangeCnt h 0 t) :=
          Nat.mul_le_mul_left _ (by omega)
        omega
      calc rangeSum h 0 t * rangeCnt h t t'
          ≤ ((t - 1) * rangeCnt h 0 t) * rangeCnt h t t' := Nat.mul_le_mul_right _ hSB
        _ ≤ (t * (1 + rangeCnt h 0 t)) * rangeCnt h t t' := Nat.mul_le_mul_right _ step1
        _ = (t * rangeCnt h t t') * (1 + rangeCnt h 0 t) := by ring
        _ ≤ rangeSum h t t' * (1 + rangeCnt h 0 t) := Nat.mul_le_mul_right _ hDS
  calc rangeSum h 0 t * (1 + rangeCnt h 0 t')
      = rangeSum h 0 t * (1 + rangeCnt h 0 t) + rangeSum h 0 t * rangeCnt h t t' := by
        rw [hC]; ring
    _ ≤ rangeSum h 0 t * (1 + rangeCnt h 0 t) + rangeSum h t t' * (1 + rangeCnt h 0 t) := by
        omega
    _ = rangeSum h 0 t' * (1 + rangeCnt h 0 t) := by rw [hS]; ring

/-- The white mean does not drop when the threshold rises to `t'`, provided
the old white mean is at least `t' + 1`: the removed buckets have values
at most `t' - 1`, i.e. below the old mean. -/
theorem whiteMean_mono (h : ℕ → ℕ) {t t' : ℕ} (ht : t ≤ t') (h256 : t' ≤ 256)
    (hwm : t' + 1 ≤ rangeSum h t 256 / (1 + rangeCnt h t 256)) :
    rangeSum h t 256 / (1 + rangeCnt h t 256) ≤
      rangeSum h t' 256 / (1 + rangeCnt h t' 256) := by
  have hS := rangeSum_split h ht h256
  have hC := rangeCnt_split h ht h256
  refine div_le_div_cross (by omega) (by omega) ?_
  -- abbreviations: `S, D` for removed mass/count, `c, W` for kept mass/count
  set S := rangeSum h t t' with hSdef
  set D := rangeCnt h t t' with hDdef
  set c := rangeSum h t' 256 with hcdef
  set W := rangeCnt h t' 256 with hWdef
  -- removed bucket values are at most `t' - 1`
  have hremoved : S ≤ (t' - 1) * D := rangeSum_le h t t'
  -- the old mean bound, cross-multiplied: `S + c ≥ (t' + 1) * (1 + D + W)`
  have hold : (t' + 1) * (1 + (D + W)) ≤ S + c := by
    have := (Nat.le_div_iff_mul_le (k := 1 + rangeCnt h t 256) (by omega)).1 hwm
    calc (t' + 1) * (1 + (D + W)) = (t' + 1) * (1 + rangeCnt h t 256) := by rw [hC]
      _ ≤ rangeSum h t 256 := this
      _ = S + c := hS
  -- hence the kept mass alone is at least `(t' + 1) * (1 + W)`
  have hc : (t' + 1) * (1 + W) ≤ c := by
    have e1 : (t' + 1) * (1 + (D + W)) = (t' + 1) * (1 + W) + (t' + 1) * D := by ring
    have e2 : S ≤ (t' + 1) * D := by
      calc S ≤ (t' - 1) * D := hremoved
        _ ≤ (t' + 1) * D := Nat.mul_le_mul_right _ (by omega)
    omega
  -- goal after rewriting the left side through the split
  have goal : (S + c) * (1 + W) ≤ c * (1 + (D + W)) := by
    have k1 : S * (1 + W) ≤ ((t' + 1) * D) * (1 + W) := by
      refine Nat.mul_le_mul_right _ ?_
      calc S ≤ (t' - 1) * D := hremoved
        _ ≤ (t' + 1) * D := Nat.mul_le_mul_right _ (by omega)
    have k2 : ((t' + 1) * D) * (1 + W) = ((t' + 1) * (1 + W)) * D := by ring
    have k3 : ((t' + 1) * (1 + W)) * D ≤ c * D := Nat.mul_le_mul_right _ hc
    have expand1 : (S + c) * (1 + W) = S * (1 + W) + c * (1 + W) := by ring
    have expand2 : c * (1 + (D + W)) = c * D + c * (1 + W) := by ring
    omega
  calc rangeSum h t 256 * (1 + W) = (S + c) * (1 + W) := by rw [hS]
    _ ≤ c * (1 + (D + W)) := goal
    _ = c * (1 + rangeCnt h t 256) := by rw [hC]

/-- **Key lemma**: once the threshold iteration ascends, it never descends:
if `t < F t` then `F t ≤ F (F t)`. -/
theorem F_ascend (h : ℕ → ℕ) {t : ℕ} (ht : t ≤ 255) (hlt : t < F h t) :
    F h t ≤ F h (F h t) := by
  have hbm := blackMean_le h t
  have hFle := F_le h t (by omega)
  -- `2 * F t ≤ bm + wm` from the flooring division
  have h2 : 2 * F h t ≤ rangeSum h 0 t / (1 + rangeCnt h 0 t) +
      rangeSum h t 256 / (1 + rangeCnt h t 256) := by
    have : F h t = (rangeSum h 0 t / (1 + rangeCnt h 0 t) +
        rangeSum h t 256 / (1 + rangeCnt h t 256)) / 2 := rfl
    omega
  have hwm : F h t + 1 ≤ rangeSum h t 256 / (1 + rangeCnt h t 256) := by omega
  have hb := blackMean_mono h (le_of_lt hlt)
  have hw := whiteMean_mono h (le_of_lt hlt) (by omega) hwm
  show F h t ≤ (rangeSum h 0 (F h t) / (1 + rangeCnt h 0 (F h t)) +
      rangeSum h (F h t) 256 / (1 + rangeCnt h (F h t) 256)) / 2
  have : F h t = (rangeSum h 0 t / (1 + rangeCnt h 0 t) +
      rangeSum h t 256 / (1 + rangeCnt h t 256)) / 2 := rfl
  omega

/-- One pass of the `while` loop: the incremental transfer of the histogram
mass between `min` and `max` turns the state for threshold `t` into the
state for threshold `F t`. -/
theorem threshLoop_step (h : ℕ → ℕ) (fuel t : ℕ) (ht : t ≤ 256) (hne : F h t ≠ t) :
    threshLoop h (fuel + 1) (rangeSum h 0 t) (1 + rangeCnt h 0 t)
        (rangeSum h t 256) (1 + rangeCnt h t 256) t (F h t) =
      threshLoop h fuel (rangeSum h 0 (F h t)) (1 + rangeCnt h 0 (F h t))
        (rangeSum h (F h t) 256) (1 + rangeCnt h (F h t) 256) (F h t) (F h (F h t)) := by
  have hle : F h t ≤ 255 := F_le h t ht
  rw [threshLoop, if_neg hne]
  rcases Nat.lt_or_ge (F h t) t with hlt | hge
  · -- `new_thresh < thresh`: move `[new, thresh)` from black to white
    have e : F h t + (t - F h t) = t := by omega
    have eS := rangeSum_split h (Nat.zero_le (F h t)) (Nat.le_of_lt hlt)
    have eC := rangeCnt_split h (Nat.zero_le (F h t)) (Nat.le_of_lt hlt)
    have eS' := rangeSum_split h (Nat.le_of_lt hlt) (show t ≤ 256 from ht)
    have eC' := rangeCnt_split h (Nat.le_of_lt hlt) (show t ≤ 256 from ht)
    simp only [if_pos hlt, histoFold_eq, e, Nat.zero_add]
    have r1 : rangeSum h 0 t - rangeSum h (F h t) t = rangeSum h 0 (F h t) := by omega
    have r2 : 1 + rangeCnt h 0 t - rangeCnt h (F h t) t = 1 + rangeCnt h 0 (F h t) := by omega
    have r3 : rangeSum h t 256 + rangeSum h (F h t) t = rangeSum h (F h t) 256 := by omega
    have r4 : 1 + rangeCnt h t 256 + rangeCnt h (F h t) t = 1 + rangeCnt h (F h t) 256 := by
      omega
    rw [r1, r2, r3, r4]
    rfl
  · -- `new_thresh > thresh`: move `[thresh, new)` from white to black
    have hgt : t < F h t := lt_of_le_of_ne hge (Ne.symm hne)
    have e : t + (F h t - t) = F h t := by omega
    have eS := rangeSum_split h (Nat.zero_le t) (Nat.le_of_lt hgt)
    have eC := rangeCnt_split h (Nat.zero_le t) (Nat.le_of_lt hgt)
    have eS' := rangeSum_split h (Nat.le_of_lt hgt) (show F h t ≤ 256 by omega)
    have eC' := rangeCnt_split h (Nat.le_of_lt hgt) (show F h t ≤ 256 by omega)
    simp only [if_neg (Nat.not_lt.2 hge), histoFold_eq, e, Nat.zero_add]
    have r1 : rangeSum h 0 t + rangeSum h t (F h t) = rangeSum h 0 (F h t) := by omega
    have r2 : 1 + rangeCnt h 0 t + rangeCnt h t (F h t) = 1 + rangeCnt h 0 (F h t) := by omega
    have r3 : rangeSum h t 256 - rangeSum h t (F h t) = rangeSum h (F h t) 256 := by omega
    have r4 : 1 + rangeCnt h t 256 - rangeCnt h t (F h t) = 1 + rangeCnt h (F h t) 256 := by
      omega
    rw [r1, r2, r3, r4]
    rfl

/-- Once ascending, the loop reaches a fixed point within `256 - t` steps. -/
theorem threshLoop_conv_asc (h : ℕ → ℕ) :
    ∀ fuel t, t ≤ 255 → t ≤ F h t → 256 - t ≤ fuel →
      ∃ v, threshLoop h fuel (rangeSum h 0 t) (1 + rangeCnt h 0 t)
          (rangeSum h t 256) (1 + rangeCnt h t 256) t (F h t) = some v ∧ v ≤ 255 := by
  intro fuel
  induction fuel with
  | zero => intro t ht _ hf; omega
  | succ n ih =>
      intro t ht hasc hf
      rcases eq_or_lt_of_le hasc with heq | hlt
      · exact ⟨t, by rw [threshLoop, if_pos heq.symm], ht⟩
      · rw [threshLoop_step h n t (by omega) (by omega)]
        exact ih (F h t) (F_le h t (by omega)) (F_ascend h ht hlt) (by omega)

/-- The loop reaches a fixed point within `257 + t` steps from any start
threshold `t ≤ 255`: it can descend at most `t` times, after which it only
ascends. -/
theorem threshLoop_conv (h : ℕ → ℕ) :
    ∀ fuel t, t ≤ 255 → 257 + t ≤ fuel →
      ∃ v, threshLoop h fuel (rangeSum h 0 t) (1 + rangeCnt h 0 t)
          (rangeSum h t 256) (1 + rangeCnt h t 256) t (F h t) = some v ∧ v ≤ 255 := by
  intro fuel
  induction fuel with
  | zero => intro t ht hf; omega
  | succ n ih =>
      intro t ht hf
      by_cases heq : F h t = t
      · exact ⟨t, by rw [threshLoop, if_pos heq], ht⟩
      rcases Nat.lt_or_ge (F h t) t with hlt | hge
      · rw [threshLoop_step h n t (by omega) heq]
        exact ih (F h t) (by omega) (by omega)
      · have hgt : t < F h t := lt_of_le_of_ne hge (Ne.symm heq)
        rw [threshLoop_step h n t (by omega) heq]
        exact threshLoop_conv_asc h n (F h t) (F_le h t (by omega))
          (F_ascend h ht hgt) (by have := F_le h t (by omega); omega)

/-- **C1.**  For every 256-bucket luma histogram (arbitrary non-negative
bucket counts, including a degenerate histogram concentrated in a single
bucket), `u8_histo_to_threshold` terminates — the fuelled model of its
`while` loop reaches the `new_thresh == thresh` exit — and the returned
value lies in `[0, 255]`. -/
theorem C1_threshold_terminates_in_range (h : ℕ → ℕ) :
    ∃ v, u8HistoToThreshold h = some v ∧ v ≤ 255 := by
  have hblack := histoFold_eq h 0x00 0x80 0 1
  have hwhite := histoFold_eq h 0x80 0x80 0 1
  unfold u8HistoToThreshold
  rw [hblack, hwhite]
  norm_num
  exact threshLoop_conv h 1000 128 (by omega) (by omega)

/-! ## Marker scanner (`src/target.rs`)

`u32` coordinates are `ℕ`.  The `f32` run-length ratios are modelled as
exact fractions `(numerator, denominator)` with positive denominators,
compared by cross-multiplication — the exact-arithmetic counterpart of the
source's `f32` comparisons (the tolerance `0.65` leaves margins that dwarf
`f32` rounding for the run lengths arising here). -/

/-- `Target<T>` from `src/target.rs`. -/
structure Target (α : Type) where
  min : Point α
  mid : Point α
  max : Point α
  deriving Repr, DecidableEq

/-- `FixedBuffer<T, N>`: fixed-length circular buffer (backing list of
length `N`, write cursor, full flag). -/
structure FixedBuffer (α : Type) where
  data : List α
  head : ℕ
  full : Bool
  deriving Repr, DecidableEq

namespace FixedBuffer

/-- `FixedBuffer::push`. -/
def push (b : FixedBuffer α) (v : α) : FixedBuffer α :=
  let data' := b.data.set b.head v
  let head' := (b.head + 1) % data'.length
  ⟨data', head', b.full || decide (head' = 0)⟩

/-- `FixedBuffer::is_full`. -/
def isFull (b : FixedBuffer α) : Bool := b.full

/-- `FixedBuffer::clear` (cursor reset only; stale data is kept, as in the
source). -/
def clear (b : FixedBuffer α) : FixedBuffer α := ⟨b.data, 0, false⟩

/-- `FixedBuffer::peek_back`: `data[if full { head } else { 0 }]`. -/
def peekBack [Inhabited α] (b : FixedBuffer α) : α :=
  b.data.getD (if b.full then b.head else 0) default

/-- `FixedBuffer::iter`: `data[start..N]` chained with `data[0..head]`,
where `start = if full { head } else { N }`. -/
def iterList (b : FixedBuffer α) : List α :=
  (b.data.drop (if b.full then b.head else b.data.length)) ++ b.data.take b.head

end FixedBuffer

/-- `TARGET_RATIOS` as exact fractions: `[1.0, 1.0/3.0, 3.0, 1.0]`. -/
def targetRatios : List (ℤ × ℤ) := [(1, 1), (1, 3), (3, 1), (1, 1)]

/-- `|ratio - target| < TARGET_THRESH` with `TARGET_THRESH = 0.65 = 13/20`,
for ratio `rn/rd` and target `tn/td` (positive denominators), decided by
cross-multiplication. -/
def ratioNear (r t : ℤ × ℤ) : Bool :=
  let dn := r.1 * t.2 - t.1 * r.2
  let dd := r.2 * t.2
  decide (-13 * dd < 20 * dn) && decide (20 * dn < 13 * dd)

/-- `Iterator::step_by(n)`: keep the elements at positions `0, n, 2n, …`,
implemented with a skip countdown (`c = 0` keeps the element and resets the
countdown to `n - 1`).  Callers only use `n = image width ≥ 1`. -/
def stepByAux {α : Type} (n : ℕ) : ℕ → List α → List α
  | _, [] => []
  | c, a :: rest => if c = 0 then a :: stepByAux n (n - 1) rest else stepByAux n (c - 1) rest

def stepBy {α : Type} (n : ℕ) (l : List α) : List α := stepByAux n 0 l

/-- Rust slice `l[lo..hi]`: `none` models the out-of-range panic. -/
def slice? (l : List Bool) (lo hi : ℕ) : Option (List Bool) :=
  if lo ≤ hi ∧ hi ≤ l.length then some ((l.take hi).drop lo) else none

/-- The backwards half of `confirm_line`: walk `back`, spilling run lengths
into `size_buf` from index 2 downwards, decrementing `min`; `none` models a
`u32` underflow of `min -= 1`. -/
def confirmBack : List Bool → List ℕ → ℕ → Bool → ℕ → Option (List ℕ × ℕ)
  | [], buf, _, _, mn => some (buf, mn)
  | px :: rest, buf, idx, color, mn =>
    if px ≠ color then
      if idx = 0 then some (buf, mn)
      else
        match checkedSub mn 1 with
        | none => none
        | some mn' =>
            confirmBack rest (buf.set (idx - 1) (buf.getD (idx - 1) 0 + 1)) (idx - 1) px mn'
    else
      match checkedSub mn 1 with
      | none => none
      | some mn' => confirmBack rest (buf.set idx (buf.getD idx 0 + 1)) idx color mn'

/-- The forwards half of `confirm_line`: walk `fwd`, spilling run lengths
into `size_buf` from index 2 upwards, incrementing `max`. -/
def confirmFwd : List Bool → List ℕ → ℕ → Bool → ℕ → List ℕ × ℕ
  | [], buf, _, _, mx => (buf, mx)
  | px :: rest, buf, idx, color, mx =>
    if px ≠ color then
      if idx = 4 then (buf, mx)
      else confirmFwd rest (buf.set (idx + 1) (buf.getD (idx + 1) 0 + 1)) (idx + 1) px (mx + 1)
    else confirmFwd rest (buf.set idx (buf.getD idx 0 + 1)) idx color (mx + 1)

/-- `confirm_line`: outer `none` models a panic, inner `Option` is the
source's return value. -/
def confirmLine (back fwd : List Bool) (mid : ℕ) : Option (Option (ℕ × ℕ)) :=
  match confirmBack back (List.replicate 5 1) 2 false mid with
  | none => none
  | some (buf1, mn) =>
      match confirmFwd fwd buf1 2 false mid with
      | (buf2, mx) =>
        -- `size_buf.windows(2)` ratios against `TARGET_RATIOS`
        if (((List.range 4).map fun i => ((buf2.getD i 1 : ℤ), (buf2.getD (i + 1) 1 : ℤ))).zip
            targetRatios).all (fun p => ratioNear p.1 p.2)
        then some (some (mn, mx)) else some none

/-- `confirm_col`. -/
def confirmCol (img : Bitmap) (x y width : ℕ) : Option (Option (ℕ × ℕ)) :=
  -- `point_idx = y*W + x`, `max = width*W`,
  -- `max_up = point_idx.checked_sub(max).unwrap_or(x)`
  match slice? img.data
      (match checkedSub (y * img.width + x) (width * img.width) with
        | some v => v
        | none => x)
      (y * img.width + x) with
  | none => none
  | some backSlice =>
    match checkedSub img.data.length (y * img.width + x) with
    | none => none
    | some rem =>
      -- `max_down = if max > len - point_idx { len - (W - x) } else { point_idx + max }`
      match (if width * img.width > rem then
          (match checkedSub img.width x with
            | none => none
            | some wx => checkedSub img.data.length wx)
        else some (y * img.width + x + width * img.width) : Option ℕ) with
      | none => none
      | some maxDown =>
        match slice? img.data (y * img.width + x) maxDown with
        | none => none
        | some fwdSlice =>
            confirmLine (stepBy img.width backSlice.reverse) (stepBy img.width fwdSlice) y

/-- `confirm_row`. -/
def confirmRow (img : Bitmap) (x y width : ℕ) : Option (Option (ℕ × ℕ)) :=
  -- `row_idx = y*W`, `width_max = width*5/8` ("25% extra margin"),
  -- `max_left = row_idx + x.saturating_sub(width_max)`
  match slice? img.data (y * img.width + (x - width * 5 / 8)) (y * img.width + x) with
  | none => none
  | some backSlice =>
    -- `max_right = if x + width_max > W { row_idx + W } else { point_idx + width_max }`
    match slice? img.data (y * img.width + x)
        (if x + width * 5 / 8 > img.width then y * img.width + img.width
          else y * img.width + x + width * 5 / 8) with
    | none => none
    | some fwdSlice => confirmLine backSlice.reverse fwdSlice x

/-- Rust `Vec::swap_remove(i)`. -/
def swapRemove {α : Type} (l : List α) (i : ℕ) : List α :=
  match l.getLast? with
  | none => []
  | some a => (l.set i a).dropLast

/-- The body of the `active_targets` sweep, with explicit structural fuel
(each pass either shrinks `active` by `swap_remove` or advances `ati`, so
`active.length - ati + 1` passes always suffice — see
`cleanupSweep_enough`).  `none` models an out-of-bounds `targets[i]`. -/
def cleanupSweep (targets : List (Target ℕ)) (y : ℕ) :
    ℕ → ℕ → List ℕ → Option (List ℕ)
  | 0, _, _ => none
  | fuel + 1, ati, active =>
    if ati < active.length then
      match targets.get? (active.getD ati 0) with
      | none => none
      | some t =>
          if y > t.max.y then cleanupSweep targets y fuel ati (swapRemove active ati)
          else cleanupSweep targets y fuel (ati + 1) active
    else some active

/-- The `active_targets` sweep at the end of a sampled row: drop (by
`swap_remove`) every active target whose box lies strictly above `y`. -/
def cleanupActive (targets : List (Target ℕ)) (y : ℕ) (ati : ℕ) (active : List ℕ) :
    Option (List ℕ) :=
  cleanupSweep targets y (active.length + 1 - ati) ati active

/-- The `active_targets.iter().all(outside)` duplicate check; `none` models
an out-of-bounds `targets[i]` (short-circuits on the first failure, as
`Iterator::all` does). -/
def allOutside (targets : List (Target ℕ)) (x startX : ℕ) : List ℕ → Option Bool
  | [] => some true
  | i :: rest =>
    match targets.get? i with
    | none => none
    | some t =>
        if x < t.min.x ∨ startX > t.max.x then allOutside targets x startX rest
        else some false

/-- The initial `while let` of a sampled row: advance through the first
chunk, counting its size; the breaking pixel is consumed.  Returns
`(last_count, rest of the row, position after the consumed pixel)`. -/
def firstChunk (chunkColor : Bool) : List Bool → ℕ → ℕ → ℕ × List Bool × ℕ
  | [], cnt, pos => (cnt, [], pos)
  | px :: rest, cnt, pos =>
    if px = chunkColor then (cnt, rest, pos + 1)
    else firstChunk chunkColor rest (cnt + 1) (pos + 1)

/-- Scanner state threaded through the inner pixel loop. -/
structure ScanState where
  ratioBuf : FixedBuffer (ℤ × ℤ)
  xBuf : FixedBuffer ℕ
  targets : List (Target ℕ)
  active : List ℕ
  deriving Repr, DecidableEq

/-- The `for (x, &px) in enum_row` loop body of `find_pos_targets`.
`none` models a panic inside the loop. -/
def rowLoop (img : Bitmap) (y : ℕ) :
    List (ℕ × Bool) → ScanState → Bool → ℕ → ℕ → Option ScanState
  | [], s, _, _, _ => some s
  | (x, px) :: rest, s, chunkColor, lastCount, count =>
    if px = chunkColor then rowLoop img y rest s chunkColor lastCount (count + 1)
    else
      let chunkColor' := px
      let xBuf' := s.xBuf.push x
      let ratioBuf' := s.ratioBuf.push ((lastCount : ℤ), (count : ℤ))
      let s' : ScanState := ⟨ratioBuf', xBuf', s.targets, s.active⟩
      let lastCount' := count
      let count' := 1
      -- `if !chunk_color || !ratio_buf.is_full() { continue; }`
      if !chunkColor' || !ratioBuf'.isFull then
        rowLoop img y rest s' chunkColor' lastCount' count'
      else
        let startX := xBuf'.peekBack
        match allOutside s'.targets x startX s'.active with
        | none => none
        | some false => rowLoop img y rest s' chunkColor' lastCount' count'
        | some true =>
          let isPattern := ((ratioBuf'.iterList.zip targetRatios).all fun p => ratioNear p.1 p.2)
          if !isPattern then rowLoop img y rest s' chunkColor' lastCount' count'
          else
            match checkedSub x startX with
            | none => none
            | some width =>
              let xMid := startX + width / 2
              match confirmCol img xMid y width with
              | none => none
              | some none => rowLoop img y rest s' chunkColor' lastCount' count'
              | some (some (yMin, yMax)) =>
                let yMid := yMin + (yMax - yMin) / 2
                match confirmRow img xMid yMid width with
                | none => none
                | some none => rowLoop img y rest s' chunkColor' lastCount' count'
                | some (some (xMin, xMax)) =>
                  let active' := s'.active ++ [s'.targets.length]
                  let newTarget : Target ℕ := ⟨⟨xMin, yMin⟩, ⟨xMid, yMid⟩, ⟨xMax, yMax⟩⟩
                  let targets' := s'.targets ++ [newTarget]
                  rowLoop img y rest ⟨ratioBuf', xBuf', targets', active'⟩
                    chunkColor' lastCount' count'

/-- One sampled row of `find_pos_targets`: first-chunk walk, inner loop,
active sweep, buffer clears.  `none` models a panic (in particular the
`unwrap` of the first pixel on an empty row). -/
def processRow (img : Bitmap) (y : ℕ) (row : List Bool) (s : ScanState) : Option ScanState :=
  match row with
  | [] => none
  | px0 :: restRow =>
    let chunkColor := !px0
    let fc := firstChunk chunkColor restRow 1 1
    let s1 : ScanState := ⟨s.ratioBuf, s.xBuf.push fc.1, s.targets, s.active⟩
    match rowLoop img y (fc.2.1.enumFrom fc.2.2) s1 chunkColor fc.1 1 with
    | none => none
    | some s2 =>
      match cleanupActive s2.targets y 0 s2.active with
      | none => none
      | some active' =>
          some ⟨s2.ratioBuf.clear, s2.xBuf.clear, s2.targets, active'⟩

/-- Fold `processRow` over the sampled rows. -/
def scanRows (img : Bitmap) : List (ℕ × List Bool) → ScanState → Option ScanState
  | [], s => some s
  | (y, row) :: rest, s =>
    match processRow img y row s with
    | none => none
    | some s' => scanRows img rest s'

/-- `find_pos_targets`: scan every 4th row of the bitmap. -/
def findPosTargets (img : Bitmap) : Option (List (Target ℕ)) :=
  let s0 : ScanState :=
    ⟨⟨List.replicate 4 ((0 : ℤ), (1 : ℤ)), 0, false⟩, ⟨List.replicate 6 0, 0, false⟩, [], []⟩
  match img.rows with
  | none => none
  | some rs =>
    match scanRows img (stepBy 4 rs.enum) s0 with
    | none => none
    | some s => some s.targets

/-! ## Totality of the scanner for bitmaps of positive width (claim C6)

The panics modelled by `none` never fire when `width ≥ 1` and the length
invariant holds.  The lemmas below discharge, in turn: the step-by length
bound (`min`/`max` walk lengths), the `confirm_*` slice bounds, the
`x_buf` content bound (`start_x ≤ x`), and the `active_targets` index
bound. -/

theorem checkedSub_some {a b v : ℕ} (h : checkedSub a b = some v) : b ≤ a ∧ v = a - b := by
  unfold checkedSub at h
  split at h
  · exact ⟨by assumption, (Option.some.inj h).symm⟩
  · exact absurd h (by simp)

/-- Step-by length bound, division-free: `len(stepByAux n c l) * n ≤
l.length + (n - 1 - c)`. -/
theorem stepByAux_length_mul {α : Type} (n : ℕ) :
    ∀ (l : List α) (c : ℕ), c < n →
      (stepByAux n c l).length * n ≤ l.length + (n - 1 - c) := by
  intro l
  induction l with
  | nil => intro c hc; simp [stepByAux]
  | cons a rest ih =>
      intro c hc
      rw [stepByAux]
      split
      · rename_i hc0
        subst hc0
        have hr := ih (n - 1) (by omega)
        have expand : ((stepByAux n (n - 1) rest).length + 1) * n =
            (stepByAux n (n - 1) rest).length * n + n := by ring
        simp only [List.length_cons]
        omega
      · have hr := ih (c - 1) (by omega)
        simp only [List.length_cons]
        omega

/-- `stepBy n l` (with `n ≥ 1`) keeps at most `⌈l.length / n⌉` elements. -/
theorem stepBy_length_mul {α : Type} (n : ℕ) (hn : 0 < n) (l : List α) :
    (stepBy n l).length * n ≤ l.length + (n - 1) := by
  have := stepByAux_length_mul n l 0 hn
  simpa [stepBy] using this

/-- The backwards walk of `confirm_line` cannot underflow when the walked
list is no longer than the midpoint coordinate. -/
theorem confirmBack_isSome :
    ∀ (back : List Bool) (buf : List ℕ) (idx : ℕ) (color : Bool) (mn : ℕ),
      back.length ≤ mn → (confirmBack back buf idx color mn).isSome := by
  intro back
  induction back with
  | nil => intro buf idx color mn _; simp [confirmBack]
  | cons px rest ih =>
      intro buf idx color mn hlen
      simp only [List.length_cons] at hlen
      have hsub : checkedSub mn 1 = some (mn - 1) := by
        unfold checkedSub
        rw [if_pos (by omega)]
      rw [confirmBack]
      split
      · split
        · simp
        · rw [hsub]
          exact ih _ _ _ _ (by omega)
      · rw [hsub]
        exact ih _ _ _ _ (by omega)

/-- `confirm_line` returns normally when the backwards walk is no longer
than the midpoint coordinate. -/
theorem confirmLine_isSome (back fwd : List Bool) (mid : ℕ)
    (hlen : back.length ≤ mid) : (confirmLine back fwd mid).isSome := by
  unfold confirmLine
  split
  · rename_i heq
    have := confirmBack_isSome back (List.replicate 5 1) 2 false mid hlen
    rw [heq] at this
    exact absurd this (by simp)
  · split
    split <;> simp

/-- The forwards walk advances `max` by at most the walked length. -/
theorem confirmFwd_le :
    ∀ (fwd : List Bool) (buf : List ℕ) (idx : ℕ) (color : Bool) (mx : ℕ),
      (confirmFwd fwd buf idx color mx).2 ≤ mx + fwd.length := by
  intro fwd
  induction fwd with
  | nil => intro buf idx color mx; rw [confirmFwd]; simp
  | cons px rest ih =>
      intro buf idx color mx
      rw [confirmFwd]
      split
      · split
        · simp
        · exact Nat.le_trans (ih _ _ _ _) (by simp only [List.length_cons]; omega)
      · exact Nat.le_trans (ih _ _ _ _) (by simp only [List.length_cons]; omega)

/-- A confirmed line's `max` exceeds the midpoint by at most the length of
the forwards walk. -/
theorem confirmLine_snd_le {back fwd : List Bool} {mid : ℕ} {p : ℕ × ℕ}
    (h : confirmLine back fwd mid = some (some p)) : p.2 ≤ mid + fwd.length := by
  unfold confirmLine at h
  split at h
  · exact absurd h (by simp)
  · rename_i r1 buf1 mn heqB
    split at h
    rename_i buf2 mx heqF
    have h2 : mx ≤ mid + fwd.length := by
      have := confirmFwd_le fwd buf1 2 false mid
      rw [heqF] at this
      exact this
    split at h
    · cases Option.some.inj (Option.some.inj h)
      exact h2
    · exact absurd (Option.some.inj h) (by simp)

theorem slice?_some {l : List Bool} {lo hi : ℕ} (h1 : lo ≤ hi) (h2 : hi ≤ l.length) :
    slice? l lo hi = some ((l.take hi).drop lo) := by
  unfold slice?
  rw [if_pos ⟨h1, h2⟩]

theorem slice?_none {l : List Bool} {lo hi : ℕ} (h : slice? l lo hi = none) :
    ¬(lo ≤ hi ∧ hi ≤ l.length) := by
  unfold slice? at h
  split at h
  · exact absurd h (by simp)
  · assumption

theorem slice?_length {l : List Bool} {lo hi : ℕ} {s : List Bool}
    (h : slice? l lo hi = some s) : s.length = hi - lo := by
  unfold slice? at h
  split at h
  · rename_i hc
    cases Option.some.inj h
    simp only [List.length_drop, List.length_take]
    omega
  · exact absurd h (by simp)

/-- `confirm_col` returns normally (its slices are in range and the upward
walk cannot underflow `y`) whenever the coordinate lies in the bitmap and
the length invariant holds. -/
theorem confirmCol_isSome (img : Bitmap) (x y width : ℕ)
    (hlen : img.data.length = img.width * img.height)
    (hx : x < img.width) (hy : y < img.height) :
    (confirmCol img x y width).isSome := by
  have hW : 0 < img.width := by omega
  have hpt : y * img.width + x < img.data.length := by
    rw [hlen]
    calc y * img.width + x < y * img.width + img.width := by omega
      _ = (y + 1) * img.width := by ring
      _ ≤ img.height * img.width := Nat.mul_le_mul_right _ (by omega)
      _ = img.width * img.height := Nat.mul_comm _ _
  have hWlen : img.width ≤ img.data.length := by
    rw [hlen]
    calc img.width = img.width * 1 := (Nat.mul_one _).symm
      _ ≤ img.width * img.height := Nat.mul_le_mul_left _ (by omega)
  -- the `min`-walk length bound: `#back ≤ y`
  have hback : ∀ (s : List Bool), s.length = y * img.width + x -
      (match checkedSub (y * img.width + x) (width * img.width) with
        | some v => v
        | none => x) → (stepBy img.width s.reverse).length ≤ y := by
    intro s hs
    rcases hcs : checkedSub (y * img.width + x) (width * img.width) with _ | v
    · rw [hcs] at hs
      dsimp only at hs
      have hslen : s.length = y * img.width := by omega
      have := stepBy_length_mul img.width hW s.reverse
      rw [List.length_reverse, hslen] at this
      by_contra hcon
      push_neg at hcon
      have : (y + 1) * img.width ≤ (stepBy img.width s.reverse).length * img.width :=
        Nat.mul_le_mul_right _ (by omega)
      have hexp : (y + 1) * img.width = y * img.width + img.width := by ring
      omega
    · rw [hcs] at hs
      dsimp only at hs
      obtain ⟨hle, rfl⟩ := checkedSub_some hcs
      rw [Nat.sub_sub_self hle] at hs
      have hslen : s.length = width * img.width := hs
      have := stepBy_length_mul img.width hW s.reverse
      rw [List.length_reverse, hslen] at this
      have hwy : width ≤ y := by
        by_contra hcon
        push_neg at hcon
        have : (y + 1) * img.width ≤ width * img.width := Nat.mul_le_mul_right _ (by omega)
        have hexp : (y + 1) * img.width = y * img.width + img.width := by ring
        omega
      by_contra hcon
      push_neg at hcon
      have : (width + 1) * img.width ≤ (stepBy img.width s.reverse).length * img.width :=
        Nat.mul_le_mul_right _ (by omega)
      have hexp : (width + 1) * img.width = width * img.width + img.width := by ring
      omega
  unfold confirmCol
  split
  · rename_i heq
    exfalso
    refine slice?_none heq ⟨?_, by omega⟩
    rcases hcs : checkedSub (y * img.width + x) (width * img.width) with _ | v
    · dsimp only
      omega
    · dsimp only
      obtain ⟨hle, rfl⟩ := checkedSub_some hcs
      omega
  · rename_i backSlice heqBack
    split
    · rename_i heq
      unfold checkedSub at heq
      rw [if_pos (by omega)] at heq
      exact absurd heq (by simp)
    · rename_i rem heqRem
      obtain ⟨hle1, hrem⟩ := checkedSub_some heqRem
      split
      · rename_i heqMD
        exfalso
        split at heqMD
        · split at heqMD
          · rename_i heqWX
            unfold checkedSub at heqWX
            rw [if_pos (by omega)] at heqWX
            exact absurd heqWX (by simp)
          · rename_i wx heqWX
            obtain ⟨hle2, rfl⟩ := checkedSub_some heqWX
            unfold checkedSub at heqMD
            rw [if_pos (by omega)] at heqMD
            exact absurd heqMD (by simp)
        · exact absurd heqMD (by simp)
      · rename_i maxDown heqMD
        split
        · rename_i heqFwd
          exfalso
          refine slice?_none heqFwd ⟨?_, ?_⟩
          · split at heqMD
            · split at heqMD
              · exact absurd heqMD (by simp)
              · rename_i wx heqWX
                obtain ⟨hle2, rfl⟩ := checkedSub_some heqWX
                obtain ⟨hle3, rfl⟩ := checkedSub_some heqMD
                have h1 : y * img.width + x + (img.width - x) ≤ img.data.length := by
                  rw [hlen]
                  have h2 : (y + 1) * img.width = y * img.width + img.width := by ring
                  have h3 : (y + 1) * img.width ≤ img.height * img.width :=
                    Nat.mul_le_mul_right _ (by omega)
                  have h4 : img.height * img.width = img.width * img.height :=
                    Nat.mul_comm _ _
                  omega
                omega
            · rename_i hnotgt
              cases Option.some.inj heqMD
              omega
          · split at heqMD
            · split at heqMD
              · exact absurd heqMD (by simp)
              · rename_i wx heqWX
                obtain ⟨hle2, rfl⟩ := checkedSub_some heqWX
                obtain ⟨hle3, rfl⟩ := checkedSub_some heqMD
                omega
            · rename_i hnotgt
              push_neg at hnotgt
              cases Option.some.inj heqMD
              omega
        · rename_i fwdSlice heqFwd
          refine confirmLine_isSome _ _ _ ?_
          exact hback backSlice (slice?_length heqBack)

/-- The downward walk of `confirm_col` cannot pass the bottom row: a
confirmed column has `y_max ≤ height - 1` (this needs `x ≥ 1`, which holds
at every call site). -/
theorem confirmCol_yMax (img : Bitmap) (x y width : ℕ) {p : ℕ × ℕ}
    (hlen : img.data.length = img.width * img.height)
    (hx : x < img.width) (hx1 : 1 ≤ x) (hy : y < img.height)
    (h : confirmCol img x y width = some (some p)) : p.2 ≤ img.height - 1 := by
  have hW : 0 < img.width := by omega
  unfold confirmCol at h
  split at h
  · exact absurd h (by simp)
  · rename_i backSlice heqBack
    split at h
    · exact absurd h (by simp)
    · rename_i rem heqRem
      obtain ⟨hle1, hrem⟩ := checkedSub_some heqRem
      split at h
      · exact absurd h (by simp)
      · rename_i maxDown heqMD
        split at h
        · exact absurd h (by simp)
        · rename_i fwdSlice heqFwd
          have hfwdlen : fwdSlice.length = maxDown - (y * img.width + x) :=
            slice?_length heqFwd
          have hsnd := confirmLine_snd_le h
          -- bound the stepped forward-walk length
          have hstep := stepBy_length_mul img.width hW fwdSlice
          have hbound : (stepBy img.width fwdSlice).length ≤ img.height - 1 - y := by
            split at heqMD
            · -- `max_down = len - (width - x)`
              split at heqMD
              · exact absurd heqMD (by simp)
              · rename_i wx heqWX
                obtain ⟨hle2, rfl⟩ := checkedSub_some heqWX
                obtain ⟨hle3, rfl⟩ := checkedSub_some heqMD
                have hflen : fwdSlice.length = (img.height - 1 - y) * img.width := by
                  rw [hfwdlen, hlen]
                  have e : (img.height - 1 - y) * img.width =
                      img.width * img.height - (img.width - x) - (y * img.width + x) := by
                    have e2 : img.width * img.height =
                        (img.height - 1 - y) * img.width + (img.width - x) +
                          (y * img.width + x) := by
                      have e3 : img.height = (img.height - 1 - y) + 1 + y := by omega
                      calc img.width * img.height = img.height * img.width := Nat.mul_comm _ _
                        _ = ((img.height - 1 - y) + 1 + y) * img.width := by rw [← e3]
                        _ = (img.height - 1 - y) * img.width + (img.width - x) +
                            (y * img.width + x) := by
                              have : ((img.height - 1 - y) + 1 + y) * img.width =
                                  (img.height - 1 - y) * img.width + img.width +
                                    y * img.width := by ring
                              omega
                    omega
                  omega
                rw [hflen] at hstep
                by_contra hcon
                push_neg at hcon
                have : (img.height - 1 - y + 1) * img.width ≤
                    (stepBy img.width fwdSlice).length * img.width :=
                  Nat.mul_le_mul_right _ (by omega)
                have hexp : (img.height - 1 - y + 1) * img.width =
                    (img.height - 1 - y) * img.width + img.width := by ring
                omega
            · -- `max_down = point_idx + max`, and `max ≤ rem` with `x ≥ 1`
              rename_i hnotgt
              push_neg at hnotgt
              cases Option.some.inj heqMD
              have hflen : fwdSlice.length = width * img.width := by omega
              have hwidth : width ≤ img.height - 1 - y := by
                -- `width*W ≤ rem = len - (y*W + x) = (H-y)*W - x < (H-y)*W`
                have hr : width * img.width < (img.height - y) * img.width := by
                  have e : (img.height - y) * img.width =
                      img.width * img.height - y * img.width := by
                    have e2 : img.width * img.height =
                        (img.height - y) * img.width + y * img.width := by
                      have e3 : img.height = (img.height - y) + y := by omega
                      calc img.width * img.height = img.height * img.width := Nat.mul_comm _ _
                        _ = ((img.height - y) + y) * img.width := by rw [← e3]
                        _ = (img.height - y) * img.width + y * img.width := by ring
                    omega
                  omega
                have := Nat.lt_of_mul_lt_mul_right hr
                omega
              rw [hflen] at hstep
              by_contra hcon
              push_neg at hcon
              have hgt : width + 1 ≤ (stepBy img.width fwdSlice).length := by omega
              have : (width + 1) * img.width ≤
                  (stepBy img.width fwdSlice).length * img.width :=
                Nat.mul_le_mul_right _ hgt
              have hexp : (width + 1) * img.width = width * img.width + img.width := by ring
              omega
          omega

/-- `confirm_row` returns normally whenever its midpoint lies in the
bitmap. -/
theorem confirmRow_isSome (img : Bitmap) (x y width : ℕ)
    (hlen : img.data.length = img.width * img.height)
    (hx : x < img.width) (hy : y < img.height) :
    (confirmRow img x y width).isSome := by
  have hW : 0 < img.width := by omega
  have hrow : y * img.width + img.width ≤ img.data.length := by
    rw [hlen]
    calc y * img.width + img.width = (y + 1) * img.width := by ring
      _ ≤ img.height * img.width := Nat.mul_le_mul_right _ (by omega)
      _ = img.width * img.height := Nat.mul_comm _ _
  unfold confirmRow
  split
  · rename_i heq
    exact absurd heq (by
      intro hnone
      exact slice?_none hnone ⟨by omega, by omega⟩)
  · rename_i backSlice heqBack
    split
    · rename_i heq
      refine absurd heq ?_
      intro hnone
      refine slice?_none hnone ⟨?_, ?_⟩ <;> split <;> omega
    · rename_i fwdSlice heqFwd
      refine confirmLine_isSome _ _ _ ?_
      have := slice?_length heqBack
      rw [List.length_reverse]
      omega

/-- Contents bound for the `x_buf` ring buffer: every slot that has been
written during the current row (all slots when `full`, the first `head`
slots otherwise) holds a transition coordinate at most `bound`. -/
def XBufInv (b : FixedBuffer ℕ) (bound : ℕ) : Prop :=
  ∀ k, (b.full = true ∨ k < b.head) → ∀ v, b.data.get? k = some v → v ≤ bound

theorem XBufInv.mono {b : FixedBuffer ℕ} {m m' : ℕ} (h : XBufInv b m) (hm : m ≤ m') :
    XBufInv b m' := fun k hk v hv => Nat.le_trans (h k hk v hv) hm

theorem XBufInv.clear (b : FixedBuffer ℕ) (m : ℕ) : XBufInv b.clear m := by
  intro k hk v hv
  rcases hk with hk | hk
  · rw [show b.clear.full = false from rfl] at hk
    exact absurd hk (by simp)
  · rw [show b.clear.head = 0 from rfl] at hk
    omega

theorem XBufInv.push {b : FixedBuffer ℕ} {m v : ℕ} (hb : XBufInv b m) (hv : v ≤ m)
    (hhead : b.head < b.data.length) : XBufInv (b.push v) m := by
  intro k hk w hw
  simp only [FixedBuffer.push, List.length_set] at hk hw
  rw [List.get?_set v b.data] at hw
  split at hw
  · rcases hget : b.data.get? k with _ | w'
    · rw [hget] at hw; exact absurd hw (by simp)
    · rw [hget] at hw
      have hvw : v = w := by simpa using hw
      omega
  · rename_i hik
    refine hb k ?_ w hw
    by_cases hfull : b.full = true
    · exact Or.inl hfull
    · have hfull0 : b.full = false := by revert hfull; cases b.full <;> simp
      rcases hk with hk | hk
      · simp only [Bool.or_eq_true, hfull0, decide_eq_true_eq] at hk
        -- wrap: `head + 1 ≡ 0 (mod len)` with `head < len` forces `head = len - 1`
        right
        rcases hk with hk | hk
        · exact absurd hk (by simp)
        · have hlen : b.head + 1 = b.data.length := by
            rcases Nat.lt_or_ge (b.head + 1) b.data.length with hlt | hge
            · rw [Nat.mod_eq_of_lt hlt] at hk; omega
            · omega
          have hklen : k < b.data.length := by
            rcases Nat.lt_or_ge k b.data.length with hlt | hge
            · exact hlt
            · rw [List.get?_eq_none.2 (by omega)] at hw
              exact absurd hw (by simp)
          omega
      · right
        rcases Nat.lt_or_ge (b.head + 1) b.data.length with hlt | hge
        · rw [Nat.mod_eq_of_lt hlt] at hk
          omega
        · have : b.head + 1 = b.data.length := by omega
          rw [this, Nat.mod_self] at hk
          omega

theorem peekBack_le {b : FixedBuffer ℕ} {m : ℕ} (hb : XBufInv b m)
    (hne : b.full = true ∨ 0 < b.head) : b.peekBack ≤ m := by
  unfold FixedBuffer.peekBack
  by_cases hfull : b.full = true
  · rw [if_pos hfull, List.getD_eq_get?]
    rcases hget : b.data.get? b.head with _ | w
    · simp
    · simpa using hb b.head (Or.inl hfull) w hget
  · rw [if_neg hfull, List.getD_eq_get?]
    rcases hne with hne | hne
    · exact absurd hne hfull
    · rcases hget : b.data.get? 0 with _ | w
      · simp
      · simpa using hb 0 (Or.inr hne) w hget

theorem push_head_lt {b : FixedBuffer ℕ} (v : ℕ) (hlen : 0 < b.data.length) :
    (b.push v).head < (b.push v).data.length := by
  simp only [FixedBuffer.push, List.length_set]
  exact Nat.mod_lt _ (by simpa using hlen)

theorem push_ne_empty {b : FixedBuffer ℕ} (v : ℕ) (hlen : 0 < b.data.length) :
    (b.push v).full = true ∨ 0 < (b.push v).head := by
  simp only [FixedBuffer.push, List.length_set, Bool.or_eq_true, decide_eq_true_eq]
  by_cases h : (b.head + 1) % b.data.length = 0
  · left; right; exact h
  · right; omega

/-- The duplicate-suppression check never indexes out of range when all the
active indices are in range. -/
theorem allOutside_isSome (targets : List (Target ℕ)) (x startX : ℕ) :
    ∀ (active : List ℕ), (∀ i ∈ active, i < targets.length) →
      (allOutside targets x startX active).isSome := by
  intro active
  induction active with
  | nil => intro _; simp [allOutside]
  | cons i rest ih =>
      intro hmem
      rw [allOutside]
      split
      · rename_i heq
        have h2 := List.get?_eq_get (hmem i (by simp))
        rw [heq] at h2
        exact absurd h2 (by simp)
      · split
        · exact ih fun j hj => hmem j (by simp [hj])
        · simp

theorem swapRemove_subset {α : Type} (l : List α) (i : ℕ) :
    ∀ a ∈ swapRemove l i, a ∈ l := by
  intro a ha
  unfold swapRemove at ha
  split at ha
  · simp at ha
  · rename_i last hlast
    have h1 := List.dropLast_subset _ ha
    rcases List.mem_or_eq_of_mem_set h1 with h | h
    · exact h
    · subst h
      exact List.mem_of_getLast?_eq_some hlast

theorem swapRemove_length {α : Type} (l : List α) (i : ℕ) (hl : l ≠ []) :
    (swapRemove l i).length = l.length - 1 := by
  unfold swapRemove
  rcases hlast : l.getLast? with _ | a
  · exact absurd (List.getLast?_eq_none_iff.1 hlast) hl
  · simp

/-- The active-target sweep terminates within its fuel and never indexes
out of range. -/
theorem cleanupSweep_isSome (targets : List (Target ℕ)) (y : ℕ) :
    ∀ (fuel ati : ℕ) (active : List ℕ), active.length - ati < fuel →
      (∀ i ∈ active, i < targets.length) →
      (cleanupSweep targets y fuel ati active).isSome := by
  intro fuel
  induction fuel with
  | zero => intro ati active hf _; omega
  | succ f ih =>
      intro ati active hf hmem
      rw [cleanupSweep]
      split
      · rename_i hlt
        have hmemi : active.getD ati 0 ∈ active := by
          rw [List.getD_eq_get?, List.get?_eq_get hlt]
          exact List.get_mem active ati hlt
        split
        · rename_i heq
          have h2 := List.get?_eq_get (hmem _ hmemi)
          rw [heq] at h2
          exact absurd h2 (by simp)
        · split
          · refine ih ati (swapRemove active ati) ?_ ?_
            · rw [swapRemove_length active ati (by intro he; subst he; simp at hlt)]
              omega
            · exact fun i hi => hmem i (swapRemove_subset _ _ i hi)
          · exact ih (ati + 1) active (by omega) hmem
      · simp

/-- Results of the sweep are a subset of the input actives. -/
theorem cleanupSweep_subset (targets : List (Target ℕ)) (y : ℕ) :
    ∀ (fuel ati : ℕ) (active res : List ℕ),
      cleanupSweep targets y fuel ati active = some res →
      ∀ i ∈ res, i ∈ active := by
  intro fuel
  induction fuel with
  | zero => intro ati active res h; rw [cleanupSweep] at h; exact absurd h (by simp)
  | succ f ih =>
      intro ati active res h
      rw [cleanupSweep] at h
      split at h
      · split at h
        · exact absurd h (by simp)
        · split at h
          · intro i hi
            exact swapRemove_subset _ _ i (ih _ _ _ h i hi)
          · exact ih _ _ _ h
      · cases Option.some.inj h
        exact fun i hi => hi

/-- The first-chunk walk: the count stays below the final position, the
position advances, and position plus remaining length is preserved. -/
theorem firstChunk_spec (cc : Bool) :
    ∀ (l : List Bool) (cnt pos : ℕ), cnt ≤ pos →
      (firstChunk cc l cnt pos).1 ≤ (firstChunk cc l cnt pos).2.2 ∧
      pos ≤ (firstChunk cc l cnt pos).2.2 ∧
      (firstChunk cc l cnt pos).2.2 + (firstChunk cc l cnt pos).2.1.length =
        pos + l.length := by
  intro l
  induction l with
  | nil => intro cnt pos h; simp [firstChunk]; omega
  | cons px rest ih =>
      intro cnt pos h
      rw [firstChunk]
      split
      · simp only [List.length_cons]
        refine ⟨by omega, by omega, by omega⟩
      · have := ih (cnt + 1) (pos + 1) (by omega)
        simp only [List.length_cons]
        refine ⟨this.1, by omega, by omega⟩

/-- The backwards walk of `confirm_line` only decrements `min`. -/
theorem confirmBack_le :
    ∀ (back : List Bool) (buf : List ℕ) (idx : ℕ) (color : Bool) (mn : ℕ)
      (r : List ℕ × ℕ), confirmBack back buf idx color mn = some r → r.2 ≤ mn := by
  intro back
  induction back with
  | nil =>
      intro buf idx color mn r h
      rw [confirmBack] at h
      cases Option.some.inj h
      exact Nat.le_refl _
  | cons px rest ih =>
      intro buf idx color mn r h
      rw [confirmBack] at h
      split at h
      · split at h
        · cases Option.some.inj h
          exact Nat.le_refl _
        · rcases hcs : checkedSub mn 1 with _ | mn'
          · rw [hcs] at h; exact absurd h (by simp)
          · rw [hcs] at h
            obtain ⟨hle, rfl⟩ := checkedSub_some hcs
            exact Nat.le_trans (ih _ _ _ _ _ h) (by omega)
      · rcases hcs : checkedSub mn 1 with _ | mn'
        · rw [hcs] at h; exact absurd h (by simp)
        · rw [hcs] at h
          obtain ⟨hle, rfl⟩ := checkedSub_some hcs
          exact Nat.le_trans (ih _ _ _ _ _ h) (by omega)

/-- The forwards walk of `confirm_line` only increments `max`. -/
theorem confirmFwd_ge :
    ∀ (fwd : List Bool) (buf : List ℕ) (idx : ℕ) (color : Bool) (mx : ℕ),
      mx ≤ (confirmFwd fwd buf idx color mx).2 := by
  intro fwd
  induction fwd with
  | nil => intro buf idx color mx; rw [confirmFwd]
  | cons px rest ih =>
      intro buf idx color mx
      rw [confirmFwd]
      split
      · split
        · exact Nat.le_refl _
        · exact Nat.le_trans (by omega) (ih _ _ _ _)
      · exact Nat.le_trans (by omega) (ih _ _ _ _)

/-- A confirmed line brackets its midpoint: `min ≤ mid ≤ max`. -/
theorem confirmLine_bracket {back fwd : List Bool} {mid : ℕ} {p : ℕ × ℕ}
    (h : confirmLine back fwd mid = some (some p)) : p.1 ≤ mid ∧ mid ≤ p.2 := by
  unfold confirmLine at h
  split at h
  · exact absurd h (by simp)
  · rename_i r1 buf1 mn heqB
    split at h
    rename_i buf2 mx heqF
    have h1 : mn ≤ mid := confirmBack_le _ _ _ _ _ _ heqB
    have h2 : mid ≤ mx := by
      have := confirmFwd_ge fwd buf1 2 false mid
      rw [heqF] at this
      exact this
    split at h
    · cases Option.some.inj (Option.some.inj h)
      exact ⟨h1, h2⟩
    · exact absurd (Option.some.inj h) (by simp)

theorem confirmCol_bracket {img : Bitmap} {x y w : ℕ} {p : ℕ × ℕ}
    (h : confirmCol img x y w = some (some p)) : p.1 ≤ y ∧ y ≤ p.2 := by
  unfold confirmCol at h
  split at h
  · exact absurd h (by simp)
  · split at h
    · exact absurd h (by simp)
    · split at h
      · exact absurd h (by simp)
      · split at h
        · exact absurd h (by simp)
        · exact confirmLine_bracket h

theorem confirmRow_bracket {img : Bitmap} {x y w : ℕ} {p : ℕ × ℕ}
    (h : confirmRow img x y w = some (some p)) : p.1 ≤ x ∧ x ≤ p.2 := by
  unfold confirmRow at h
  split at h
  · exact absurd h (by simp)
  · split at h
    · exact absurd h (by simp)
    · exact confirmLine_bracket h

theorem checkedSub_none {a b : ℕ} (h : checkedSub a b = none) : ¬b ≤ a := by
  unfold checkedSub at h
  split at h
  · exact absurd h (by simp)
  · assumption

/-- Totality of the inner pixel loop: starting from position `p ≥ 2` with
in-range active indices and an `x_buf` bounded by `p`, the loop returns
normally and keeps the active indices in range. -/
theorem rowLoop_total (img : Bitmap) (y : ℕ)
    (hlen : img.data.length = img.width * img.height) (hy : y < img.height) :
    ∀ (rest : List Bool) (p : ℕ) (s : ScanState) (cc : Bool) (lc cnt : ℕ),
      2 ≤ p → p + rest.length ≤ img.width →
      (∀ i ∈ s.active, i < s.targets.length) →
      s.xBuf.data.length = 6 → s.xBuf.head < 6 → XBufInv s.xBuf p →
      ∃ s', rowLoop img y (List.enumFrom p rest) s cc lc cnt = some s' ∧
        (∀ i ∈ s'.active, i < s'.targets.length) ∧ s'.xBuf.data.length = 6 := by
  intro rest
  induction rest with
  | nil =>
      intro p s cc lc cnt hp hlenr hA hxl hxh hX
      exact ⟨s, by rw [show List.enumFrom p ([] : List Bool) = [] from rfl, rowLoop], hA, hxl⟩
  | cons px rest2 ih =>
      intro p s cc lc cnt hp hlenr hA hxl hxh hX
      have hpW : p < img.width := by
        simp only [List.length_cons] at hlenr
        omega
      have hlenr2 : p + 1 + rest2.length ≤ img.width := by
        simp only [List.length_cons] at hlenr
        omega
      -- facts about the pushed x-buffer
      have hxl' : (s.xBuf.push p).data.length = 6 := by
        simp only [FixedBuffer.push, List.length_set]
        exact hxl
      have hxh' : (s.xBuf.push p).head < 6 := by
        have := push_head_lt (b := s.xBuf) p (by omega)
        rwa [hxl'] at this
      have hX' : XBufInv (s.xBuf.push p) (p + 1) :=
        (hX.push (Nat.le_refl p) (by omega)).mono (by omega)
      have hstart : (s.xBuf.push p).peekBack ≤ p :=
        peekBack_le (hX.push (Nat.le_refl p) (by omega)) (push_ne_empty p (by omega))
      rw [show List.enumFrom p (px :: rest2) = (p, px) :: List.enumFrom (p + 1) rest2
        from rfl]
      rw [rowLoop]
      dsimp only
      split
      · exact ih (p + 1) s cc lc (cnt + 1) (by omega) hlenr2 hA hxl hxh (hX.mono (by omega))
      · split
        · exact ih (p + 1) _ px cnt 1 (by omega) hlenr2 hA hxl' hxh' hX'
        · split
          · rename_i heq
            have := allOutside_isSome s.targets p ((s.xBuf.push p).peekBack) s.active hA
            rw [heq] at this
            exact absurd this (by simp)
          · exact ih (p + 1) _ px cnt 1 (by omega) hlenr2 hA hxl' hxh' hX'
          · split
            · exact ih (p + 1) _ px cnt 1 (by omega) hlenr2 hA hxl' hxh' hX'
            · split
              · rename_i heq
                exact absurd (checkedSub_none heq) (by omega)
              · rename_i width heqW
                obtain ⟨hsx, rfl⟩ := checkedSub_some heqW
                -- the confirmation midpoint: `1 ≤ x_mid < width`
                have hxmid1 : 1 ≤ (s.xBuf.push p).peekBack + (p - (s.xBuf.push p).peekBack) / 2 := by
                  omega
                have hxmidW : (s.xBuf.push p).peekBack + (p - (s.xBuf.push p).peekBack) / 2 <
                    img.width := by
                  omega
                split
                · rename_i heq
                  have := confirmCol_isSome img _ y (p - (s.xBuf.push p).peekBack) hlen hxmidW hy
                  rw [heq] at this
                  exact absurd this (by simp)
                · exact ih (p + 1) _ px cnt 1 (by omega) hlenr2 hA hxl' hxh' hX'
                · rename_i yMin yMax heqCC
                  have hyb := confirmCol_bracket heqCC
                  have hymax := confirmCol_yMax img _ y _ hlen hxmidW hxmid1 hy heqCC
                  have hymid : yMin + (yMax - yMin) / 2 < img.height := by
                    simp only at hyb hymax
                    omega
                  split
                  · rename_i heq
                    have := confirmRow_isSome img _ (yMin + (yMax - yMin) / 2)
                      (p - (s.xBuf.push p).peekBack) hlen hxmidW hymid
                    rw [heq] at this
                    exact absurd this (by simp)
                  · exact ih (p + 1) _ px cnt 1 (by omega) hlenr2 hA hxl' hxh' hX'
                  · rename_i xMin xMax heqCR
                    refine ih (p + 1) _ px cnt 1 (by omega) hlenr2 ?_ hxl' hxh' hX'
                    intro i hi
                    simp only [List.length_append, List.length_singleton]
                    rcases List.mem_append.1 hi with hmem | hmem
                    · have := hA i hmem
                      omega
                    · rcases List.mem_singleton.1 hmem with rfl
                      omega

/-- The first-chunk walk either consumes the whole row or stops at
position at least 2. -/
theorem firstChunk_pos (cc : Bool) :
    ∀ (l : List Bool) (cnt pos : ℕ),
      (firstChunk cc l cnt pos).2.1 = [] ∨ pos + 1 ≤ (firstChunk cc l cnt pos).2.2 := by
  intro l
  induction l with
  | nil => intro cnt pos; left; rw [firstChunk]
  | cons px rest ih =>
      intro cnt pos
      rw [firstChunk]
      split
      · right; exact Nat.le_refl _
      · rcases ih (cnt + 1) (pos + 1) with h | h
        · left; exact h
        · right; omega

/-- A cleared buffer satisfies any content bound (no slot is in scope). -/
theorem XBufInv_of_reset {b : FixedBuffer ℕ} (hh : b.head = 0) (hf : b.full = false)
    (m : ℕ) : XBufInv b m := by
  intro k hk v hv
  rcases hk with hk | hk
  · rw [hf] at hk; exact absurd hk (by simp)
  · rw [hh] at hk; omega

/-- Totality of one sampled row. -/
theorem processRow_total (img : Bitmap) (y : ℕ) (row : List Bool) (s : ScanState)
    (hlen : img.data.length = img.width * img.height) (hy : y < img.height)
    (hrow : row.length = img.width) (hW : 0 < img.width)
    (hA : ∀ i ∈ s.active, i < s.targets.length)
    (hxl : s.xBuf.data.length = 6) (hxh : s.xBuf.head = 0) (hxf : s.xBuf.full = false) :
    ∃ s', processRow img y row s = some s' ∧
      (∀ i ∈ s'.active, i < s'.targets.length) ∧
      s'.xBuf.data.length = 6 ∧ s'.xBuf.head = 0 ∧ s'.xBuf.full = false := by
  rcases row with _ | ⟨px0, restRow⟩
  · simp at hrow
    omega
  · unfold processRow
    dsimp only
    have hfc := firstChunk_spec (!px0) restRow 1 1 (Nat.le_refl 1)
    have hfc2 := firstChunk_pos (!px0) restRow 1 1
    have hxl1 : (s.xBuf.push (firstChunk (!px0) restRow 1 1).1).data.length = 6 := by
      simp only [FixedBuffer.push, List.length_set]
      exact hxl
    have hxh1 : (s.xBuf.push (firstChunk (!px0) restRow 1 1).1).head < 6 := by
      have := push_head_lt (b := s.xBuf) (firstChunk (!px0) restRow 1 1).1 (by omega)
      rwa [hxl1] at this
    have hrl : ∃ s2, rowLoop img y
        (List.enumFrom (firstChunk (!px0) restRow 1 1).2.2
          (firstChunk (!px0) restRow 1 1).2.1)
        ⟨s.ratioBuf, s.xBuf.push (firstChunk (!px0) restRow 1 1).1, s.targets, s.active⟩
        (!px0) (firstChunk (!px0) restRow 1 1).1 1 = some s2 ∧
        (∀ i ∈ s2.active, i < s2.targets.length) ∧ s2.xBuf.data.length = 6 := by
      rcases hfc2 with hnil | hpos
      · rw [hnil, show List.enumFrom (firstChunk (!px0) restRow 1 1).2.2 ([] : List Bool) =
          [] from rfl, rowLoop]
        exact ⟨_, rfl, hA, hxl1⟩
      · refine rowLoop_total img y hlen hy _ _ _ _ _ _ (by omega) ?_ hA hxl1 hxh1 ?_
        · simp only [List.length_cons] at hrow
          omega
        · refine (XBufInv_of_reset hxh hxf _).push ?_ (by omega)
          omega
    obtain ⟨s2, hs2, hA2, hxl2⟩ := hrl
    rw [hs2]
    dsimp only
    have hcs : (cleanupActive s2.targets y 0 s2.active).isSome := by
      unfold cleanupActive
      exact cleanupSweep_isSome s2.targets y _ 0 s2.active (by omega) hA2
    rcases hca : cleanupActive s2.targets y 0 s2.active with _ | active2
    · rw [hca] at hcs; exact absurd hcs (by simp)
    · dsimp only
      refine ⟨_, rfl, ?_, ?_, rfl, rfl⟩
      · intro i hi
        refine hA2 i ?_
        unfold cleanupActive at hca
        exact cleanupSweep_subset s2.targets y _ 0 s2.active active2 hca i hi
      · simp only [FixedBuffer.clear]
        exact hxl2

/-- Totality of the row fold. -/
theorem scanRows_total (img : Bitmap)
    (hlen : img.data.length = img.width * img.height) (hW : 0 < img.width) :
    ∀ (rowsList : List (ℕ × List Bool)) (s : ScanState),
      (∀ r ∈ rowsList, r.1 < img.height ∧ (r.2 : List Bool).length = img.width) →
      (∀ i ∈ s.active, i < s.targets.length) →
      s.xBuf.data.length = 6 → s.xBuf.head = 0 → s.xBuf.full = false →
      (scanRows img rowsList s).isSome := by
  intro rowsList
  induction rowsList with
  | nil => intro s _ _ _ _ _; simp [scanRows]
  | cons r rest ih =>
      intro s hrows hA hxl hxh hxf
      rw [scanRows]
      obtain ⟨hy, hrlen⟩ := hrows r (by simp)
      obtain ⟨s', hs', hA', hxl', hxh', hxf'⟩ :=
        processRow_total img r.1 r.2 s hlen hy hrlen hW hA hxl hxh hxf
      rw [hs']
      exact ih s' (fun q hq => hrows q (by simp [hq])) hA' hxl' hxh' hxf'

/-- Elements kept by `stepBy` come from the original list. -/
theorem stepByAux_subset {α : Type} (n : ℕ) :
    ∀ (l : List α) (c : ℕ) (a : α), a ∈ stepByAux n c l → a ∈ l := by
  intro l
  induction l with
  | nil => intro c a ha; rw [stepByAux] at ha; exact absurd ha (by simp)
  | cons x rest ih =>
      intro c a ha
      rw [stepByAux] at ha
      split at ha
      · rcases List.mem_cons.1 ha with rfl | hmem
        · exact List.mem_cons_self _ _
        · exact List.mem_cons_of_mem _ (ih _ _ hmem)
      · exact List.mem_cons_of_mem _ (ih _ _ ha)

/-- **C6 (counterexample).**  The claim includes bitmaps of degenerate
dimensions, but on a bitmap of width 0 the row iterator construction
(`chunks_exact(0)`) fails, so `find_pos_targets` does not return normally. -/
theorem C6_counterexample :
    findPosTargets ⟨[], 0, 0⟩ = none ∧ Bitmap.rows ⟨[], 0, 0⟩ = none := by
  constructor <;> rfl

/-- **C6 (amended).**  For every `Bitmap` of positive width satisfying the
length invariant, `find_pos_targets` returns normally — none of the
internal panics (row `unwrap`, `u32` underflows, slice ranges, `targets`
indexing) can fire — and an empty marker list is among the normal
outcomes (e.g. on an all-white bitmap). -/
theorem C6_scanner_total (img : Bitmap) (hW : 0 < img.width)
    (hlen : img.data.length = img.width * img.height) :
    (findPosTargets img).isSome := by
  unfold findPosTargets
  dsimp only
  have hrows : img.rows = some (Bitmap.chunksExact img.width img.data) := by
    unfold Bitmap.rows
    rw [if_neg (by omega)]
  rw [hrows]
  dsimp only
  have hsome : (scanRows img
      (stepBy 4 (Bitmap.chunksExact img.width img.data).enum)
      ⟨⟨List.replicate 4 ((0 : ℤ), (1 : ℤ)), 0, false⟩,
        ⟨List.replicate 6 0, 0, false⟩, [], []⟩).isSome := by
    refine scanRows_total img hlen hW _ _ ?_ (by simp) (by simp) rfl rfl
    intro r hr
    have hmem : r ∈ (Bitmap.chunksExact img.width img.data).enum :=
      stepByAux_subset 4 _ 0 r hr
    have hget : (Bitmap.chunksExact img.width img.data).get? r.1 = some r.2 :=
      List.mem_enum_iff_get?.1 hmem
    have hlt : r.1 < (Bitmap.chunksExact img.width img.data).length :=
      List.get?_eq_some.1 hget |>.1
    constructor
    · rw [chunksExact_length, hlen, Nat.mul_div_cancel_left _ hW] at hlt
      exact hlt
    · exact chunksExact_mem_length img.width img.data r.2 (List.get?_mem hget)
  rcases hsr : scanRows img (stepBy 4 (Bitmap.chunksExact img.width img.data).enum)
      ⟨⟨List.replicate 4 ((0 : ℤ), (1 : ℤ)), 0, false⟩,
        ⟨List.replicate 6 0, 0, false⟩, [], []⟩ with _ | s
  · rw [hsr] at hsome; exact absurd hsome (by simp)
  · simp

/-! ## Claim C9: bounding-box invariant of produced markers -/

/-- The `Marker` invariant of the spec:
`min.x ≤ mid.x ≤ max.x` and `min.y ≤ mid.y ≤ max.y`. -/
def TargetInv (t : Target ℕ) : Prop :=
  t.min.x ≤ t.mid.x ∧ t.mid.x ≤ t.max.x ∧ t.min.y ≤ t.mid.y ∧ t.mid.y ≤ t.max.y

/-- The inner pixel loop preserves the target invariant. -/
theorem rowLoop_inv (img : Bitmap) (y : ℕ) :
    ∀ (pixels : List (ℕ × Bool)) (s : ScanState) (cc : Bool) (lc cnt : ℕ)
      (s' : ScanState), (∀ t ∈ s.targets, TargetInv t) →
      rowLoop img y pixels s cc lc cnt = some s' → ∀ t ∈ s'.targets, TargetInv t := by
  intro pixels
  induction pixels with
  | nil =>
      intro s cc lc cnt s' hs h
      rw [rowLoop] at h
      cases Option.some.inj h
      exact hs
  | cons p rest ih =>
      intro s cc lc cnt s' hs h
      rw [rowLoop] at h
      dsimp only at h
      split at h
      · exact ih _ _ _ _ _ hs h
      · split at h
        · refine ih _ _ _ _ _ ?_ h
          exact hs
        · split at h
          · exact absurd h (by simp)
          · refine ih _ _ _ _ _ ?_ h
            exact hs
          · split at h
            · refine ih _ _ _ _ _ ?_ h
              exact hs
            · split at h
              · exact absurd h (by simp)
              · rename_i width heqW
                split at h
                · exact absurd h (by simp)
                · refine ih _ _ _ _ _ ?_ h
                  exact hs
                · rename_i yMin yMax heqCC
                  split at h
                  · exact absurd h (by simp)
                  · refine ih _ _ _ _ _ ?_ h
                    exact hs
                  · rename_i xMin xMax heqCR
                    refine ih _ _ _ _ _ ?_ h
                    intro t ht
                    rcases List.mem_append.1 ht with hmem | hmem
                    · exact hs t hmem
                    · have hy := confirmCol_bracket heqCC
                      have hx := confirmRow_bracket heqCR
                      rcases List.mem_singleton.1 hmem with rfl
                      simp only [TargetInv] at *
                      refine ⟨hx.1, hx.2, ?_, ?_⟩ <;> omega

/-- `processRow` preserves the target invariant. -/
theorem processRow_inv (img : Bitmap) (y : ℕ) (row : List Bool) (s s' : ScanState)
    (hs : ∀ t ∈ s.targets, TargetInv t) (h : processRow img y row s = some s') :
    ∀ t ∈ s'.targets, TargetInv t := by
  unfold processRow at h
  split at h
  · exact absurd h (by simp)
  · dsimp only at h
    split at h
    · exact absurd h (by simp)
    · rename_i s2 hrl
      split at h
      · exact absurd h (by simp)
      · rename_i active2 hca
        cases Option.some.inj h
        refine rowLoop_inv img y _ _ _ _ _ s2 ?_ hrl
        exact hs

/-- The row fold preserves the target invariant. -/
theorem scanRows_inv (img : Bitmap) :
    ∀ (rows : List (ℕ × List Bool)) (s s' : ScanState),
      (∀ t ∈ s.targets, TargetInv t) → scanRows img rows s = some s' →
      ∀ t ∈ s'.targets, TargetInv t := by
  intro rows
  induction rows with
  | nil =>
      intro s s' hs h
      rw [scanRows] at h
      cases Option.some.inj h
      exact hs
  | cons r rest ih =>
      intro s s' hs h
      rw [scanRows] at h
      rcases hpr : processRow img r.1 r.2 s with _ | s2
      · rw [hpr] at h; exact absurd h (by simp)
      · rw [hpr] at h
        exact ih _ _ (processRow_inv img r.1 r.2 s s2 hs hpr) h

/-- **C9.**  Every marker produced by `find_pos_targets` satisfies the
bounding-box invariant `min.x ≤ mid.x ≤ max.x` and `min.y ≤ mid.y ≤ max.y`:
the vertical confirmation walks outwards from the sampled row, the final
midpoints are computed inside the confirmed spans, and the horizontal
re-confirmation walks outwards from `x_mid`. -/
theorem C9_marker_bounding_box_invariant (img : Bitmap) (ts : List (Target ℕ))
    (h : findPosTargets img = some ts) :
    ∀ t ∈ ts, t.min.x ≤ t.mid.x ∧ t.mid.x ≤ t.max.x ∧
      t.min.y ≤ t.mid.y ∧ t.mid.y ≤ t.max.y := by
  unfold findPosTargets at h
  split at h
  · exact absurd h (by simp)
  · dsimp only at h
    split at h
    · exact absurd h (by simp)
    · rename_i s hsr
      cases Option.some.inj h
      exact scanRows_inv img _ _ _ (by simp) hsr

/-! ## Concrete witness bitmap: a module-width-3 finder pattern

A 23×23 bitmap holding one synthetic finder pattern (7×7 cells of 3×3
pixels at the origin: black border ring and black 3×3-cell core), on which
the scanner finds exactly one marker. -/

def witnessPixel (x y : ℕ) : Bool :=
  if x < 21 ∧ y < 21 then
    !(y / 3 = 0 ∨ y / 3 = 6 ∨ x / 3 = 0 ∨ x / 3 = 6 ∨
      (2 ≤ y / 3 ∧ y / 3 ≤ 4 ∧ 2 ≤ x / 3 ∧ x / 3 ≤ 4))
  else true

def witnessBitmap : Bitmap :=
  ⟨(List.range (23 * 23)).map fun i => witnessPixel (i % 23) (i / 23), 23, 23⟩

set_option maxRecDepth 100000 in
/-- **C9 (witness).**  On the 23×23 synthetic bitmap the scanner finds the
marker `⟨(1,0), (12,10), (21,21)⟩`, which satisfies the bounding-box
invariant. -/
theorem C9_witness :
    (⟨⟨1, 0⟩, ⟨12, 10⟩, ⟨21, 21⟩⟩ : Target ℕ).min.x ≤
        (⟨⟨1, 0⟩, ⟨12, 10⟩, ⟨21, 21⟩⟩ : Target ℕ).mid.x ∧
      (⟨⟨1, 0⟩, ⟨12, 10⟩, ⟨21, 21⟩⟩ : Target ℕ).mid.x ≤
        (⟨⟨1, 0⟩, ⟨12, 10⟩, ⟨21, 21⟩⟩ : Target ℕ).max.x ∧
      (⟨⟨1, 0⟩, ⟨12, 10⟩, ⟨21, 21⟩⟩ : Target ℕ).min.y ≤
        (⟨⟨1, 0⟩, ⟨12, 10⟩, ⟨21, 21⟩⟩ : Target ℕ).mid.y ∧
      (⟨⟨1, 0⟩, ⟨12, 10⟩, ⟨21, 21⟩⟩ : Target ℕ).mid.y ≤
        (⟨⟨1, 0⟩, ⟨12, 10⟩, ⟨21, 21⟩⟩ : Target ℕ).max.y :=
  C9_marker_bounding_box_invariant witnessBitmap
    [⟨⟨1, 0⟩, ⟨12, 10⟩, ⟨21, 21⟩⟩] (by decide)
    ⟨⟨1, 0⟩, ⟨12, 10⟩, ⟨21, 21⟩⟩ (List.Mem.head _)

set_option maxRecDepth 100000 in
/-- **C6 (witness).** -/
theorem C6_witness : (findPosTargets witnessBitmap).isSome :=
  C6_scanner_total witnessBitmap (by decide) (by decide)

/-! ## `f64` geometry (`pick_corners`, `to_affine_transform`, `scan`)

`f64` values are modelled by `FP`: exact reals extended with the IEEE
special values `+∞`, `-∞` and `NaN`.  Arithmetic on finite values is exact
(no rounding); the special values propagate as in IEEE 754.  Finite zero is
unsigned, and a zero divisor is treated as `+0` — in the modelled code a
zero divisor only ever arises as `a - a` for finite `a`, which is `+0.0`
in IEEE 754. -/

inductive FP where
  | nan : FP
  | pinf : FP
  | ninf : FP
  | num : ℝ → FP

namespace FP

noncomputable def add : FP → FP → FP
  | nan, _ => nan
  | _, nan => nan
  | pinf, ninf => nan
  | pinf, _ => pinf
  | ninf, pinf => nan
  | ninf, _ => ninf
  | num _, pinf => pinf
  | num _, ninf => ninf
  | num a, num b => num (a + b)

noncomputable def neg : FP → FP
  | nan => nan
  | pinf => ninf
  | ninf => pinf
  | num a => num (-a)

noncomputable def sub (a b : FP) : FP := add a (neg b)

open Classical in
noncomputable def mul : FP → FP → FP
  | nan, _ => nan
  | _, nan => nan
  | pinf, pinf => pinf
  | pinf, ninf => ninf
  | ninf, pinf => ninf
  | ninf, ninf => pinf
  | pinf, num b => if 0 < b then pinf else if b < 0 then ninf else nan
  | ninf, num b => if 0 < b then ninf else if b < 0 then pinf else nan
  | num a, pinf => if 0 < a then pinf else if a < 0 then ninf else nan
  | num a, ninf => if 0 < a then ninf else if a < 0 then pinf else nan
  | num a, num b => num (a * b)

open Classical in
noncomputable def div : FP → FP → FP
  | nan, _ => nan
  | _, nan => nan
  | pinf, pinf => nan
  | pinf, ninf => nan
  | ninf, pinf => nan
  | ninf, ninf => nan
  | pinf, num b => if 0 ≤ b then pinf else ninf
  | ninf, num b => if 0 ≤ b then ninf else pinf
  | num _, pinf => num 0
  | num _, ninf => num 0
  | num a, num b =>
      if b = 0 then (if 0 < a then pinf else if a < 0 then ninf else nan)
      else num (a / b)

/-- `f64::atan`. -/
noncomputable def atanF : FP → FP
  | nan => nan
  | pinf => num (Real.pi / 2)
  | ninf => num (-(Real.pi / 2))
  | num a => num (Real.arctan a)

noncomputable def absF : FP → FP
  | nan => nan
  | pinf => pinf
  | ninf => pinf
  | num a => num |a|

/-- Truncation toward zero on ℝ. -/
noncomputable def rtrunc (a : ℝ) : ℝ := if 0 ≤ a then (⌊a⌋ : ℝ) else (⌈a⌉ : ℝ)

open Classical in
/-- Rust `%` on `f64`: `a - b * trunc(a / b)`. -/
noncomputable def fmod : FP → FP → FP
  | nan, _ => nan
  | _, nan => nan
  | pinf, _ => nan
  | ninf, _ => nan
  | num _, pinf => nan
  | num _, ninf => nan
  | num a, num b => if b = 0 then nan else num (a - b * rtrunc (a / b))

/-- IEEE `<` (false whenever `NaN` is involved). -/
def lt : FP → FP → Prop
  | nan, _ => False
  | _, nan => False
  | pinf, _ => False
  | ninf, ninf => False
  | ninf, _ => True
  | num _, pinf => True
  | num _, ninf => False
  | num a, num b => a < b

noncomputable instance : Decidable (lt a b) := Classical.propDecidable _

end FP

/-- `Target::up/down/left/right` (`src/target.rs`). -/
def Target.up (t : Target α) : Point α := ⟨t.mid.x, t.min.y⟩

def Target.down (t : Target α) : Point α := ⟨t.mid.x, t.max.y⟩

def Target.left (t : Target α) : Point α := ⟨t.min.x, t.mid.y⟩

def Target.right (t : Target α) : Point α := ⟨t.max.x, t.mid.y⟩

/-- The slope from target `i` to target `(i + 1) % 3`
(`pick_corners`, `src/target.rs` lines 338-342). -/
noncomputable def pcSlopes (t : Fin 3 → Target FP) (i : Fin 3) : FP :=
  FP.div (FP.sub (t (i + 1)).mid.y (t i).mid.y) (FP.sub (t (i + 1)).mid.x (t i).mid.x)

/-- The angle from target `i` to target `(i + 1) % 3`
(`pick_corners`, `src/target.rs` lines 346-350). -/
noncomputable def pcAngles (t : Fin 3 → Target FP) (i : Fin 3) : FP :=
  FP.add (FP.atanF (pcSlopes t i))
    (if FP.lt (t (i + 1)).mid.x (t i).mid.x then FP.num (Real.pi * 1.5)
     else FP.num (Real.pi * 0.5))

/-- The arc at target `i` (`pick_corners`, `src/target.rs` lines 353-357). -/
noncomputable def pcArcs (t : Fin 3 → Target FP) (i : Fin 3) : FP :=
  FP.sub
    (FP.fmod (FP.add (pcAngles t (i + 2)) (FP.num Real.pi)) (FP.num (2 * Real.pi)))
    (pcAngles t i)

/-- The argument of `max3` in `pick_corners` (`src/target.rs` lines 363-366). -/
noncomputable def pcFolded (t : Fin 3 → Target FP) (i : Fin 3) : FP :=
  let a := FP.absF (pcArcs t i)
  if FP.lt (FP.num Real.pi) a then FP.sub (FP.num (2 * Real.pi)) a else a

/-- `max3` (`src/target.rs` lines 311-318), specialised to `f64` values. -/
noncomputable def max3 (f : Fin 3 → FP) : Fin 3 :=
  if FP.lt (f 0) (f 1) then (if FP.lt (f 1) (f 2) then 2 else 1)
  else (if FP.lt (f 0) (f 2) then 2 else 0)

/-- The `tl_index` of `pick_corners`. -/
noncomputable def pcTl (t : Fin 3 → Target FP) : Fin 3 := max3 (pcFolded t)

/-- The `(top_right, bot_left, h_slope, v_slope)` selection of `pick_corners`
(`src/target.rs` lines 372-376). -/
noncomputable def pcPick (t : Fin 3 → Target FP) : Target FP × Target FP × FP × FP :=
  let tl := pcTl t
  if FP.lt (FP.num Real.pi)
      (FP.fmod (FP.add (pcArcs t tl) (FP.num (2 * Real.pi))) (FP.num (2 * Real.pi))) then
    (t (tl + 2), t (tl + 1), pcSlopes t (tl + 2), pcSlopes t tl)
  else
    (t (tl + 1), t (tl + 2), pcSlopes t tl, pcSlopes t (tl + 2))

/-- The `pick_points` closure of `pick_corners` (`src/target.rs` lines
379-395): choose points on the outer edges of the code.  The conditions
`other_is_to_right` and `other_is_below` are written out at each use. -/
noncomputable def pickPoints (topLeft targ other : Target FP) (slope : FP) :
    Point FP × Point FP × Point FP :=
  if FP.lt (FP.num 1) (FP.absF slope) then
    (if FP.lt (FP.add (FP.div (FP.sub other.mid.y targ.mid.y) slope) targ.mid.x)
        other.mid.x then topLeft.left else topLeft.right,
     if FP.lt (FP.add (FP.div (FP.sub other.mid.y targ.mid.y) slope) targ.mid.x)
        other.mid.x then targ.left else targ.right,
     if FP.lt targ.mid.y other.mid.y then targ.up else targ.down)
  else
    (if FP.lt (FP.add (FP.mul (FP.sub other.mid.x targ.mid.x) slope) targ.mid.y)
        other.mid.y then topLeft.up else topLeft.down,
     if FP.lt (FP.add (FP.mul (FP.sub other.mid.x targ.mid.x) slope) targ.mid.y)
        other.mid.y then targ.up else targ.down,
     if FP.lt targ.mid.x other.mid.x then targ.left else targ.right)

/-- The `intersect` closure of `pick_corners` (`src/target.rs` lines
400-404). -/
noncomputable def intersectF (hSlope vSlope : FP) (p1 p2 : Point FP) : Point FP :=
  let x := FP.div
    (FP.sub (FP.add (FP.sub (FP.mul hSlope p1.x) (FP.mul vSlope p2.x)) p2.y) p1.y)
    (FP.sub hSlope vSlope)
  ⟨x, FP.add (FP.mul hSlope (FP.sub x p1.x)) p1.y⟩

/-- `pick_corners` (`src/target.rs` lines 326-406).  Returns `none` exactly
when the marker count differs from 3; otherwise computes three corners
through slopes, angles, inner arcs and two-line intersections, with *no*
guard against equal, infinite or `NaN` slopes. -/
noncomputable def pickCorners (targets : List (Target FP)) : Option (List (Point FP)) :=
  match targets with
  | [a, b, c] =>
    let t : Fin 3 → Target FP := ![a, b, c]
    let topLeft := t (pcTl t)
    let pick := pcPick t
    let top := pickPoints topLeft pick.1 pick.2.1 pick.2.2.1
    let leftp := pickPoints topLeft pick.2.1 pick.1 pick.2.2.2
    some [intersectF pick.2.2.1 pick.2.2.2 top.1 leftp.1,
      intersectF pick.2.2.1 pick.2.2.2 top.2.1 top.2.2,
      intersectF pick.2.2.1 pick.2.2.2 leftp.2.2 leftp.2.1]
  | _ => none

/-- `f64::cos` on the `FP` model. -/
noncomputable def FP.cosF : FP → FP
  | FP.nan => FP.nan
  | FP.pinf => FP.nan
  | FP.ninf => FP.nan
  | FP.num a => FP.num (Real.cos a)

/-- `f64::sin` on the `FP` model. -/
noncomputable def FP.sinF : FP → FP
  | FP.nan => FP.nan
  | FP.pinf => FP.nan
  | FP.ninf => FP.nan
  | FP.num a => FP.num (Real.sin a)

/-- `Point::<f64>::angle_to` (`src/lib.rs` lines 49-61). -/
noncomputable def angleTo (p other : Point FP) : FP :=
  let xDiff := FP.sub other.x p.x
  let yDiff := FP.sub other.y p.y
  let arc := FP.atanF (FP.div yDiff xDiff)
  if FP.lt xDiff (FP.num 0) then
    if FP.lt yDiff (FP.num 0) then FP.sub arc (FP.num Real.pi)
    else FP.add arc (FP.num Real.pi)
  else arc

/-- The `vectors` field computed by `scan` when `pick_corners` succeeds
(`src/lib.rs` lines 92-96): `angle_h` and `angle_v` are both taken from
`bbox[0].angle_to(bbox[1])`, and each vector is
`(200 * cos(angle), 200 * sin(angle))`. -/
noncomputable def scanVectors (bbox0 bbox1 : Point FP) : Point FP × Point FP :=
  let angleH := angleTo bbox0 bbox1
  let angleV := angleTo bbox0 bbox1
  (⟨FP.mul (FP.num 200) (FP.cosF angleH), FP.mul (FP.num 200) (FP.sinF angleH)⟩,
   ⟨FP.mul (FP.num 200) (FP.cosF angleV), FP.mul (FP.num 200) (FP.sinF angleV)⟩)

noncomputable def colA : Target FP :=
  ⟨⟨FP.num 1, FP.num 1⟩, ⟨FP.num 4, FP.num 4⟩, ⟨FP.num 7, FP.num 7⟩⟩

noncomputable def colB : Target FP :=
  ⟨⟨FP.num 10, FP.num 10⟩, ⟨FP.num 13, FP.num 13⟩, ⟨FP.num 16, FP.num 16⟩⟩

noncomputable def colC : Target FP :=
  ⟨⟨FP.num 19, FP.num 19⟩, ⟨FP.num 22, FP.num 22⟩, ⟨FP.num 25, FP.num 25⟩⟩

noncomputable def collinearMarkers : List (Target FP) := [colA, colB, colC]

noncomputable def colT : Fin 3 → Target FP := ![colA, colB, colC]

/-- **C3.**  The spec requires the corner resolver to return `None` (guarding
with a small epsilon) when the two slopes used in a line intersection are
(near-)equal, e.g. for collinear markers, instead of producing non-finite
corner coordinates.  The code has no such guard: on three exactly collinear
markers (all pairwise slopes equal to 1) it returns `Some` corners, and the
unguarded zero-denominator intersection makes every returned coordinate a
non-finite value (`NaN` or `-∞`). -/
theorem C3_collinear_markers_not_rejected :
    pickCorners collinearMarkers =
      some [⟨FP.nan, FP.nan⟩, ⟨FP.ninf, FP.ninf⟩, ⟨FP.nan, FP.nan⟩] := by
  have hpi := Real.pi_pos
  have hs0 : pcSlopes colT 0 = FP.num 1 := by
    show FP.div (FP.sub (FP.num 13) (FP.num 4)) (FP.sub (FP.num 13) (FP.num 4)) = FP.num 1
    norm_num [FP.div, FP.sub, FP.neg, FP.add]
  have hs1 : pcSlopes colT 1 = FP.num 1 := by
    show FP.div (FP.sub (FP.num 22) (FP.num 13)) (FP.sub (FP.num 22) (FP.num 13)) = FP.num 1
    norm_num [FP.div, FP.sub, FP.neg, FP.add]
  have hs2 : pcSlopes colT 2 = FP.num 1 := by
    show FP.div (FP.sub (FP.num 4) (FP.num 22)) (FP.sub (FP.num 4) (FP.num 22)) = FP.num 1
    norm_num [FP.div, FP.sub, FP.neg, FP.add]
  have ha0 : pcAngles colT 0 = FP.num (3 * Real.pi / 4) := by
    rw [pcAngles, hs0]
    rw [show ((colT (0 + 1)).mid.x) = FP.num 13 from rfl,
      show ((colT 0).mid.x) = FP.num 4 from rfl]
    rw [if_neg (show ¬ FP.lt (FP.num 13) (FP.num 4) from by norm_num [FP.lt])]
    rw [show FP.atanF (FP.num 1) = FP.num (Real.pi / 4) from by
      rw [FP.atanF, Real.arctan_one]]
    rw [show FP.add (FP.num (Real.pi / 4)) (FP.num (Real.pi * 0.5)) =
      FP.num (Real.pi / 4 + Real.pi * 0.5) from rfl]
    norm_num
    ring
  have ha1 : pcAngles colT 1 = FP.num (3 * Real.pi / 4) := by
    rw [pcAngles, hs1]
    rw [show ((colT (1 + 1)).mid.x) = FP.num 22 from rfl,
      show ((colT 1).mid.x) = FP.num 13 from rfl]
    rw [if_neg (show ¬ FP.lt (FP.num 22) (FP.num 13) from by norm_num [FP.lt])]
    rw [show FP.atanF (FP.num 1) = FP.num (Real.pi / 4) from by
      rw [FP.atanF, Real.arctan_one]]
    rw [show FP.add (FP.num (Real.pi / 4)) (FP.num (Real.pi * 0.5)) =
      FP.num (Real.pi / 4 + Real.pi * 0.5) from rfl]
    norm_num
    ring
  have ha2 : pcAngles colT 2 = FP.num (7 * Real.pi / 4) := by
    rw [pcAngles, hs2]
    rw [show ((colT (2 + 1)).mid.x) = FP.num 4 from rfl,
      show ((colT 2).mid.x) = FP.num 22 from rfl]
    rw [if_pos (show FP.lt (FP.num 4) (FP.num 22) from by norm_num [FP.lt])]
    rw [show FP.atanF (FP.num 1) = FP.num (Real.pi / 4) from by
      rw [FP.atanF, Real.arctan_one]]
    rw [show FP.add (FP.num (Real.pi / 4)) (FP.num (Real.pi * 1.5)) =
      FP.num (Real.pi / 4 + Real.pi * 1.5) from rfl]
    norm_num
    ring
  have h2pi : (2 : ℝ) * Real.pi ≠ 0 := by positivity
  have harc0 : pcArcs colT 0 = FP.num 0 := by
    rw [pcArcs]
    rw [show ((0 : Fin 3) + 2) = 2 from rfl, ha2, ha0]
    rw [show FP.add (FP.num (7 * Real.pi / 4)) (FP.num Real.pi) =
      FP.num (7 * Real.pi / 4 + Real.pi) from rfl]
    rw [FP.fmod, if_neg h2pi]
    rw [show (7 * Real.pi / 4 + Real.pi) / (2 * Real.pi) = 11 / 8 from by
      field_simp; ring]
    rw [show FP.rtrunc (11 / 8 : ℝ) = 1 from by
      rw [FP.rtrunc, if_pos (by norm_num)]; norm_num]
    rw [show (7 * Real.pi / 4 + Real.pi - 2 * Real.pi * 1 : ℝ) = 3 * Real.pi / 4 from by
      ring]
    rw [show FP.sub (FP.num (3 * Real.pi / 4)) (FP.num (3 * Real.pi / 4)) =
      FP.num (3 * Real.pi / 4 + -(3 * Real.pi / 4)) from rfl]
    norm_num
  have harc1 : pcArcs colT 1 = FP.num Real.pi := by
    rw [pcArcs]
    rw [show ((1 : Fin 3) + 2) = 0 from rfl, ha0, ha1]
    rw [show FP.add (FP.num (3 * Real.pi / 4)) (FP.num Real.pi) =
      FP.num (3 * Real.pi / 4 + Real.pi) from rfl]
    rw [FP.fmod, if_neg h2pi]
    rw [show (3 * Real.pi / 4 + Real.pi) / (2 * Real.pi) = 7 / 8 from by
      field_simp; ring]
    rw [show FP.rtrunc (7 / 8 : ℝ) = 0 from by
      rw [FP.rtrunc, if_pos (by norm_num)]; norm_num]
    rw [show (3 * Real.pi / 4 + Real.pi - 2 * Real.pi * 0 : ℝ) = 7 * Real.pi / 4 from by
      ring]
    rw [show FP.sub (FP.num (7 * Real.pi / 4)) (FP.num (3 * Real.pi / 4)) =
      FP.num (7 * Real.pi / 4 + -(3 * Real.pi / 4)) from rfl]
    rw [show (7 * Real.pi / 4 + -(3 * Real.pi / 4) : ℝ) = Real.pi from by ring]
  have harc2 : pcArcs colT 2 = FP.num 0 := by
    rw [pcArcs]
    rw [show ((2 : Fin 3) + 2) = 1 from rfl, ha1, ha2]
    rw [show FP.add (FP.num (3 * Real.pi / 4)) (FP.num Real.pi) =
      FP.num (3 * Real.pi / 4 + Real.pi) from rfl]
    rw [FP.fmod, if_neg h2pi]
    rw [show (3 * Real.pi / 4 + Real.pi) / (2 * Real.pi) = 7 / 8 from by
      field_simp; ring]
    rw [show FP.rtrunc (7 / 8 : ℝ) = 0 from by
      rw [FP.rtrunc, if_pos (by norm_num)]; norm_num]
    rw [show (3 * Real.pi / 4 + Real.pi - 2 * Real.pi * 0 : ℝ) = 7 * Real.pi / 4 from by
      ring]
    rw [show FP.sub (FP.num (7 * Real.pi / 4)) (FP.num (7 * Real.pi / 4)) =
      FP.num (7 * Real.pi / 4 + -(7 * Real.pi / 4)) from rfl]
    norm_num
  have hf0 : pcFolded colT 0 = FP.num 0 := by
    simp only [pcFolded, harc0]
    rw [show FP.absF (FP.num 0) = FP.num 0 from by rw [FP.absF]; norm_num]
    rw [if_neg (show ¬ FP.lt (FP.num Real.pi) (FP.num 0) from by
      simp only [FP.lt, not_lt]; exact hpi.le)]
  have hf1 : pcFolded colT 1 = FP.num Real.pi := by
    simp only [pcFolded, harc1]
    rw [show FP.absF (FP.num Real.pi) = FP.num Real.pi from by
      rw [FP.absF, abs_of_pos hpi]]
    rw [if_neg (show ¬ FP.lt (FP.num Real.pi) (FP.num Real.pi) from by
      simp only [FP.lt, lt_self_iff_false, not_false_iff])]
  have hf2 : pcFolded colT 2 = FP.num 0 := by
    simp only [pcFolded, harc2]
    rw [show FP.absF (FP.num 0) = FP.num 0 from by rw [FP.absF]; norm_num]
    rw [if_neg (show ¬ FP.lt (FP.num Real.pi) (FP.num 0) from by
      simp only [FP.lt, not_lt]; exact hpi.le)]
  have htl : pcTl colT = 1 := by
    rw [pcTl, max3, hf0, hf1, hf2]
    rw [if_pos (show FP.lt (FP.num 0) (FP.num Real.pi) from hpi)]
    rw [if_neg (show ¬ FP.lt (FP.num Real.pi) (FP.num 0) from by
      simp only [FP.lt, not_lt]; exact hpi.le)]
  have hpick : pcPick colT = (colC, colA, FP.num 1, FP.num 1) := by
    simp only [pcPick, htl]
    rw [show ((1 : Fin 3) + 2) = 0 from rfl, show ((1 : Fin 3) + 1) = 2 from rfl]
    rw [harc1]
    rw [show FP.add (FP.num Real.pi) (FP.num (2 * Real.pi)) =
      FP.num (Real.pi + 2 * Real.pi) from rfl]
    rw [FP.fmod, if_neg h2pi]
    rw [show (Real.pi + 2 * Real.pi) / (2 * Real.pi) = 3 / 2 from by
      field_simp; ring]
    rw [show FP.rtrunc (3 / 2 : ℝ) = 1 from by
      rw [FP.rtrunc, if_pos (by norm_num)]; norm_num]
    rw [show (Real.pi + 2 * Real.pi - 2 * Real.pi * 1 : ℝ) = Real.pi from by ring]
    rw [if_neg (show ¬ FP.lt (FP.num Real.pi) (FP.num Real.pi) from by
      simp only [FP.lt, lt_self_iff_false, not_false_iff])]
    rw [hs1, hs0]
    rfl
  have htop : pickPoints colB colC colA (FP.num 1) =
      (⟨FP.num 13, FP.num 16⟩, ⟨FP.num 22, FP.num 25⟩, ⟨FP.num 25, FP.num 22⟩) := by
    norm_num [pickPoints, FP.lt, FP.absF, FP.add, FP.mul, FP.sub, FP.neg, FP.div,
      colA, colB, colC, Target.up, Target.down, Target.left, Target.right]
  have hleft : pickPoints colB colA colC (FP.num 1) =
      (⟨FP.num 13, FP.num 16⟩, ⟨FP.num 4, FP.num 7⟩, ⟨FP.num 1, FP.num 4⟩) := by
    norm_num [pickPoints, FP.lt, FP.absF, FP.add, FP.mul, FP.sub, FP.neg, FP.div,
      colA, colB, colC, Target.up, Target.down, Target.left, Target.right]
  show pickCorners [colA, colB, colC] = _
  simp only [pickCorners]
  rw [show (![colA, colB, colC] : Fin 3 → Target FP) = colT from rfl]
  rw [htl, hpick]
  rw [show colT (1 : Fin 3) = colB from rfl]
  dsimp only
  rw [htop, hleft]
  dsimp only
  simp only [intersectF]
  norm_num [FP.div, FP.mul, FP.add, FP.sub, FP.neg]

noncomputable def axA : Target FP :=
  ⟨⟨FP.num 1, FP.num 1⟩, ⟨FP.num 4, FP.num 4⟩, ⟨FP.num 7, FP.num 7⟩⟩

noncomputable def axB : Target FP :=
  ⟨⟨FP.num 21, FP.num 1⟩, ⟨FP.num 24, FP.num 4⟩, ⟨FP.num 27, FP.num 7⟩⟩

noncomputable def axC : Target FP :=
  ⟨⟨FP.num 1, FP.num 21⟩, ⟨FP.num 4, FP.num 24⟩, ⟨FP.num 7, FP.num 27⟩⟩

noncomputable def axisAlignedMarkers : List (Target FP) := [axA, axB, axC]

noncomputable def axT : Fin 3 → Target FP := ![axA, axB, axC]

/-- **C4.**  First half of the claim: `pick_corners` returns `None` for every
marker list whose length is not exactly 3.  Second half refuted: for three
markers at the corners of an axis-aligned right triangle (an unrotated code)
the vertical edge slope is `-∞`, the intersection arithmetic degenerates
(`∞/∞`, `0·∞`), and every returned corner is `(NaN, NaN)` — not the expected
rectangle corners `[top-left, top-right, bottom-left]`. -/
theorem C4_corners_length_guard_and_nan :
    (∀ ts : List (Target FP), ts.length ≠ 3 → pickCorners ts = none) ∧
    pickCorners axisAlignedMarkers =
      some [⟨FP.nan, FP.nan⟩, ⟨FP.nan, FP.nan⟩, ⟨FP.nan, FP.nan⟩] := by
  constructor
  · intro ts h
    match ts with
    | [] => rfl
    | [_] => rfl
    | [_, _] => rfl
    | [_, _, _] => exact absurd rfl h
    | _ :: _ :: _ :: _ :: _ => rfl
  have hpi := Real.pi_pos
  have hs0 : pcSlopes axT 0 = FP.num 0 := by
    show FP.div (FP.sub (FP.num 4) (FP.num 4)) (FP.sub (FP.num 24) (FP.num 4)) = FP.num 0
    norm_num [FP.div, FP.sub, FP.neg, FP.add]
  have hs2 : pcSlopes axT 2 = FP.ninf := by
    show FP.div (FP.sub (FP.num 4) (FP.num 24)) (FP.sub (FP.num 4) (FP.num 4)) = FP.ninf
    norm_num [FP.div, FP.sub, FP.neg, FP.add]
  have ha0 : pcAngles axT 0 = FP.num (Real.pi / 2) := by
    rw [pcAngles, hs0]
    rw [show ((axT (0 + 1)).mid.x) = FP.num 24 from rfl,
      show ((axT 0).mid.x) = FP.num 4 from rfl]
    rw [if_neg (show ¬ FP.lt (FP.num 24) (FP.num 4) from by norm_num [FP.lt])]
    rw [show FP.atanF (FP.num 0) = FP.num 0 from by
      rw [FP.atanF, Real.arctan_zero]]
    rw [show FP.add (FP.num 0) (FP.num (Real.pi * 0.5)) =
      FP.num (0 + Real.pi * 0.5) from rfl]
    exact congrArg FP.num (by ring)
  have ha1 : pcAngles axT 1 = FP.num (5 * Real.pi / 4) := by
    rw [pcAngles]
    rw [show pcSlopes axT 1 = FP.num (-1) from by
      show FP.div (FP.sub (FP.num 24) (FP.num 4)) (FP.sub (FP.num 4) (FP.num 24)) =
        FP.num (-1)
      norm_num [FP.div, FP.sub, FP.neg, FP.add]]
    rw [show ((axT (1 + 1)).mid.x) = FP.num 4 from rfl,
      show ((axT 1).mid.x) = FP.num 24 from rfl]
    rw [if_pos (show FP.lt (FP.num 4) (FP.num 24) from by norm_num [FP.lt])]
    rw [show FP.atanF (FP.num (-1)) = FP.num (-(Real.pi / 4)) from by
      rw [FP.atanF, show (-1 : ℝ) = -(1 : ℝ) from rfl, Real.arctan_neg,
        Real.arctan_one]]
    rw [show FP.add (FP.num (-(Real.pi / 4))) (FP.num (Real.pi * 1.5)) =
      FP.num (-(Real.pi / 4) + Real.pi * 1.5) from rfl]
    exact congrArg FP.num (by ring)
  have ha2 : pcAngles axT 2 = FP.num 0 := by
    rw [pcAngles, hs2]
    rw [show ((axT (2 + 1)).mid.x) = FP.num 4 from rfl,
      show ((axT 2).mid.x) = FP.num 4 from rfl]
    rw [if_neg (show ¬ FP.lt (FP.num 4) (FP.num 4) from by norm_num [FP.lt])]
    rw [show FP.atanF FP.ninf = FP.num (-(Real.pi / 2)) from rfl]
    rw [show FP.add (FP.num (-(Real.pi / 2))) (FP.num (Real.pi * 0.5)) =
      FP.num (-(Real.pi / 2) + Real.pi * 0.5) from rfl]
    exact congrArg FP.num (by ring)
  have h2pi : (2 : ℝ) * Real.pi ≠ 0 := by positivity
  have harc0 : pcArcs axT 0 = FP.num (Real.pi / 2) := by
    rw [pcArcs]
    rw [show ((0 : Fin 3) + 2) = 2 from rfl, ha2, ha0]
    rw [show FP.add (FP.num 0) (FP.num Real.pi) = FP.num (0 + Real.pi) from rfl]
    rw [FP.fmod, if_neg h2pi]
    rw [show (0 + Real.pi) / (2 * Real.pi) = 1 / 2 from by field_simp; ring]
    rw [show FP.rtrunc (1 / 2 : ℝ) = 0 from by
      rw [FP.rtrunc, if_pos (by norm_num)]; norm_num]
    rw [show (0 + Real.pi - 2 * Real.pi * 0 : ℝ) = Real.pi from by ring]
    rw [show FP.sub (FP.num Real.pi) (FP.num (Real.pi / 2)) =
      FP.num (Real.pi + -(Real.pi / 2)) from rfl]
    exact congrArg FP.num (by ring)
  have harc1 : pcArcs axT 1 = FP.num (Real.pi / 4) := by
    rw [pcArcs]
    rw [show ((1 : Fin 3) + 2) = 0 from rfl, ha0, ha1]
    rw [show FP.add (FP.num (Real.pi / 2)) (FP.num Real.pi) =
      FP.num (Real.pi / 2 + Real.pi) from rfl]
    rw [FP.fmod, if_neg h2pi]
    rw [show (Real.pi / 2 + Real.pi) / (2 * Real.pi) = 3 / 4 from by
      field_simp; ring]
    rw [show FP.rtrunc (3 / 4 : ℝ) = 0 from by
      rw [FP.rtrunc, if_pos (by norm_num)]; norm_num]
    rw [show (Real.pi / 2 + Real.pi - 2 * Real.pi * 0 : ℝ) = 3 * Real.pi / 2 from by
      ring]
    rw [show FP.sub (FP.num (3 * Real.pi / 2)) (FP.num (5 * Real.pi / 4)) =
      FP.num (3 * Real.pi / 2 + -(5 * Real.pi / 4)) from rfl]
    exact congrArg FP.num (by ring)
  have harc2 : pcArcs axT 2 = FP.num (Real.pi / 4) := by
    rw [pcArcs]
    rw [show ((2 : Fin 3) + 2) = 1 from rfl, ha1, ha2]
    rw [show FP.add (FP.num (5 * Real.pi / 4)) (FP.num Real.pi) =
      FP.num (5 * Real.pi / 4 + Real.pi) from rfl]
    rw [FP.fmod, if_neg h2pi]
    rw [show (5 * Real.pi / 4 + Real.pi) / (2 * Real.pi) = 9 / 8 from by
      field_simp; ring]
    rw [show FP.rtrunc (9 / 8 : ℝ) = 1 from by
      rw [FP.rtrunc, if_pos (by norm_num)]; norm_num]
    rw [show (5 * Real.pi / 4 + Real.pi - 2 * Real.pi * 1 : ℝ) = Real.pi / 4 from by
      ring]
    rw [show FP.sub (FP.num (Real.pi / 4)) (FP.num 0) =
      FP.num (Real.pi / 4 + -0) from rfl]
    exact congrArg FP.num (by ring)
  have hf0 : pcFolded axT 0 = FP.num (Real.pi / 2) := by
    simp only [pcFolded, harc0]
    rw [show FP.absF (FP.num (Real.pi / 2)) = FP.num (Real.pi / 2) from by
      rw [FP.absF, abs_of_pos (by positivity)]]
    rw [if_neg (show ¬ FP.lt (FP.num Real.pi) (FP.num (Real.pi / 2)) from by
      simp only [FP.lt, not_lt]; linarith)]
  have hf1 : pcFolded axT 1 = FP.num (Real.pi / 4) := by
    simp only [pcFolded, harc1]
    rw [show FP.absF (FP.num (Real.pi / 4)) = FP.num (Real.pi / 4) from by
      rw [FP.absF, abs_of_pos (by positivity)]]
    rw [if_neg (show ¬ FP.lt (FP.num Real.pi) (FP.num (Real.pi / 4)) from by
      simp only [FP.lt, not_lt]; linarith)]
  have hf2 : pcFolded axT 2 = FP.num (Real.pi / 4) := by
    simp only [pcFolded, harc2]
    rw [show FP.absF (FP.num (Real.pi / 4)) = FP.num (Real.pi / 4) from by
      rw [FP.absF, abs_of_pos (by positivity)]]
    rw [if_neg (show ¬ FP.lt (FP.num Real.pi) (FP.num (Real.pi / 4)) from by
      simp only [FP.lt, not_lt]; linarith)]
  have htl : pcTl axT = 0 := by
    rw [pcTl, max3, hf0, hf1, hf2]
    rw [if_neg (show ¬ FP.lt (FP.num (Real.pi / 2)) (FP.num (Real.pi / 4)) from by
      simp only [FP.lt, not_lt]; linarith)]
    rw [if_neg (show ¬ FP.lt (FP.num (Real.pi / 2)) (FP.num (Real.pi / 4)) from by
      simp only [FP.lt, not_lt]; linarith)]
  have hpick : pcPick axT = (axB, axC, FP.num 0, FP.ninf) := by
    simp only [pcPick, htl]
    rw [show ((0 : Fin 3) + 2) = 2 from rfl, show ((0 : Fin 3) + 1) = 1 from rfl]
    rw [harc0]
    rw [show FP.add (FP.num (Real.pi / 2)) (FP.num (2 * Real.pi)) =
      FP.num (Real.pi / 2 + 2 * Real.pi) from rfl]
    rw [FP.fmod, if_neg h2pi]
    rw [show (Real.pi / 2 + 2 * Real.pi) / (2 * Real.pi) = 5 / 4 from by
      field_simp; ring]
    rw [show FP.rtrunc (5 / 4 : ℝ) = 1 from by
      rw [FP.rtrunc, if_pos (by norm_num)]; norm_num]
    rw [show (Real.pi / 2 + 2 * Real.pi - 2 * Real.pi * 1 : ℝ) = Real.pi / 2 from by
      ring]
    rw [if_neg (show ¬ FP.lt (FP.num Real.pi) (FP.num (Real.pi / 2)) from by
      simp only [FP.lt, not_lt]; linarith)]
    rw [hs0, hs2]
    rfl
  have htop : pickPoints axA axB axC (FP.num 0) =
      (⟨FP.num 4, FP.num 1⟩, ⟨FP.num 24, FP.num 1⟩, ⟨FP.num 27, FP.num 4⟩) := by
    norm_num [pickPoints, FP.lt, FP.absF, FP.add, FP.mul, FP.sub, FP.neg, FP.div,
      axA, axB, axC, Target.up, Target.down, Target.left, Target.right]
  have hleft : pickPoints axA axC axB FP.ninf =
      (⟨FP.num 1, FP.num 4⟩, ⟨FP.num 1, FP.num 24⟩, ⟨FP.num 4, FP.num 27⟩) := by
    norm_num [pickPoints, FP.lt, FP.absF, FP.add, FP.mul, FP.sub, FP.neg, FP.div,
      axA, axB, axC, Target.up, Target.down, Target.left, Target.right]
  show pickCorners [axA, axB, axC] = _
  simp only [pickCorners]
  rw [show (![axA, axB, axC] : Fin 3 → Target FP) = axT from rfl]
  rw [htl, hpick]
  rw [show axT (0 : Fin 3) = axA from rfl]
  dsimp only
  rw [htop, hleft]
  dsimp only
  simp only [intersectF]
  norm_num [FP.div, FP.mul, FP.add, FP.sub, FP.neg]

/-- **C4 (witness).** -/
theorem C4_corners_witness : pickCorners ([] : List (Target FP)) = none :=
  C4_corners_length_guard_and_nan.1 [] (by decide)

/-- **C10.**  Whenever `scan` computes its `vectors` field, the two vectors it
stores are equal, because `angle_h` and `angle_v` are both taken from
`bbox[0].angle_to(bbox[1])`; the nominally vertical vector is not derived
from the corner-0-to-corner-2 edge. -/
theorem C10_scan_vectors_equal (b0 b1 : Point FP) :
    (scanVectors b0 b1).1 = (scanVectors b0 b1).2 := rfl

end Arqr
